import Mathlib

/-!
# sds-ebpf observer: sampling scheduler and collection cycle

A shallow embedding of `agent/cmd/observer/main.go` and `agent/pkg/config/config.go`.

* `Config` is the struct of `config.go`.
* `loadConfig` seeds a `Config` from the command-line flags and unmarshals the optional
  JSON file onto it.
* `main` arms the ticker, launches the cold-start cycle and runs the select loop over
  ticks and stop signals.
* `runCollection` is one collection cycle: it starts the event source, creates the output
  file named after the wall-clock start time, and drains the channel until the timeout.

Library calls of the Go standard library (`encoding/json`, `time`, `path/filepath`, `os`)
are modelled after their documented behaviour; the serialisation of a single event is a
parameter `marshal`, since the event type lives in a package outside the source tree.
Output files live in a file system shared by all cycles of the process: a cycle writes
through a handle with its own offset, a write may fail part-way, and another cycle may
create (and so truncate) or write the file at the same path while the cycle runs.
-/

namespace SdsObserver

/-! ## Configuration (`agent/pkg/config/config.go`) -/

/-- The agent configuration, field for field as in `config.Config`. Go `int` fields are
integers; the 64-bit range is imposed where arithmetic is done on them. -/
structure Config where
  OutputDir : String
  SamplingOn : Int
  SamplingOff : Int
  HTTPEndpoint : String
  Verbose : Bool
  MonitorProcesses : Bool
  MonitorSyscalls : Bool
  MonitorNetwork : Bool
  ContainerRuntime : String
  deriving DecidableEq, Repr

/-- The value of `config.Default()`. -/
def Default : Config :=
  { OutputDir := "/var/log/sds-observer"
    SamplingOn := 60
    SamplingOff := 240
    HTTPEndpoint := ""
    Verbose := false
    MonitorProcesses := true
    MonitorSyscalls := true
    MonitorNetwork := true
    ContainerRuntime := "docker" }

/-! ## Events -/

/-- Modelled from the spec: `collector.Event` is declared in `agent/pkg/collector`, which is
not part of the source tree. The spec (section 3) describes an event as a type tag, a
process identifier and monitor-specific fields that are left uninterpreted; `main.go` reads
only `event.Type` and `event.PID`. -/
structure Event where
  Type_ : String
  PID : Int
  fields : String
  deriving DecidableEq, Repr

/-! ## Wall-clock time and the timestamp layout -/

/-- A wall-clock reading as `time.Now()` presents it to `Format`: the civil date and time
of day in the local zone, plus the nanoseconds within the second. -/
structure Time where
  year : Nat
  month : Nat
  day : Nat
  hour : Nat
  minute : Nat
  second : Nat
  nsec : Nat
  deriving DecidableEq, Repr

/-- The ranges of the civil fields of a wall-clock reading. -/
def Time.Valid (t : Time) : Prop :=
  1 ≤ t.month ∧ t.month ≤ 12 ∧ 1 ≤ t.day ∧ t.day ≤ 31 ∧
  t.hour < 24 ∧ t.minute < 60 ∧ t.second < 60 ∧ t.nsec < 1000000000

instance (t : Time) : Decidable t.Valid := by
  unfold Time.Valid; infer_instance

/-- The decimal digit character of `d` (`byte(48 + d)` in Go). -/
def digit (d : Nat) : Char := Char.ofNat (48 + d)

/-- The decimal digits of `u`, least significant first, computed as the loop in Go's
`appendInt` does; `fuel` bounds the number of digits. -/
def digitsRev : Nat → Nat → List Char
  | 0, _ => []
  | fuel + 1, u => if u < 10 then [digit u] else digit (u % 10) :: digitsRev fuel (u / 10)

/-- The decimal representation of `u`, most significant digit first. -/
def decimal (u : Nat) : List Char := (digitsRev (u + 1) u).reverse

/-- Go's `appendInt` for a non-negative value: decimal digits, left-padded with zeros to
`width`. -/
def appendInt (x width : Nat) : List Char :=
  List.replicate (width - (decimal x).length) '0' ++ decimal x

/-- The result of `t.Format("20060102_150405")`. The layout's chunks are the four-digit year,
zero-padded month and day, a literal underscore, and zero-padded hour, minute and second. -/
def Time.Format (t : Time) : List Char :=
  appendInt t.year 4 ++ appendInt t.month 2 ++ appendInt t.day 2 ++ ['_'] ++
    appendInt t.hour 2 ++ appendInt t.minute 2 ++ appendInt t.second 2

/-! ## `filepath.Join` -/

/-- Split a path at every slash; the result always has at least one element. -/
def splitSlash : List Char → List (List Char)
  | [] => [[]]
  | c :: cs =>
    if c = '/' then [] :: splitSlash cs
    else match splitSlash cs with
      | [] => [[c]]
      | h :: t => (c :: h) :: t

/-- One element of the lexical clean-up done by `filepath.Clean`. The stack holds the kept
elements, innermost first: empty and `.` elements are dropped, `..` removes the element
before it, or is kept when there is none and the path is not rooted. -/
def cleanStep (rooted : Bool) (st : List (List Char)) (c : List Char) : List (List Char) :=
  if c = [] ∨ c = ['.'] then st
  else if c = ['.', '.'] then
    match st with
    | [] => if rooted then [] else [c]
    | top :: below => if top = ['.', '.'] then c :: st else below
  else c :: st

/-- Join path elements with single slashes. -/
def joinSlash : List (List Char) → List Char
  | [] => []
  | [c] => c
  | c :: d :: cs => c ++ '/' :: joinSlash (d :: cs)

/-- Go's `filepath.Clean` on a slash-separated path. -/
def Clean (path : List Char) : List Char :=
  if path = [] then ['.']
  else
    let rooted := path.head? = some '/'
    let comps := ((splitSlash path).foldl (cleanStep rooted) []).reverse
    if rooted then '/' :: joinSlash comps
    else if comps = [] then ['.'] else joinSlash comps

/-- Go's `filepath.Join` for two elements: empty elements are ignored, the rest are joined
with a slash and cleaned. -/
def Join (dir name : List Char) : List Char :=
  if dir ≠ [] then Clean (dir ++ '/' :: name)
  else if name ≠ [] then Clean name
  else []

/-- The path of the cycle's output file:
`filepath.Join(cfg.OutputDir, fmt.Sprintf("events_%s.json", timestamp))`. -/
def outputFile (cfg : Config) (now : Time) : String :=
  String.mk (Join cfg.OutputDir.data ("events_".data ++ now.Format ++ ".json".data))

/-! ## Durations -/

/-- Wrap an integer to the 64-bit two's-complement range, as Go arithmetic on `int` and
`time.Duration` does on a 64-bit platform. -/
def wrap64 (x : Int) : Int := (x + 2 ^ 63) % 2 ^ 64 - 2 ^ 63

/-- The constant `time.Second`, in nanoseconds. -/
def Second : Int := 1000000000

/-- The expression `time.Duration(n) * time.Second` for a Go `int` value `n`. -/
def seconds (n : Int) : Int := wrap64 (n * Second)

/-- The ticker period computed in `main`:
`time.Duration(cfg.SamplingOn+cfg.SamplingOff) * time.Second`. -/
def tickerPeriod (cfg : Config) : Int := seconds (wrap64 (cfg.SamplingOn + cfg.SamplingOff))

/-- The timeout computed in `runCollection`: `time.Duration(cfg.SamplingOn) * time.Second`. -/
def cycleTimeout (cfg : Config) : Int := seconds cfg.SamplingOn

/-- Go's `time.NewTicker(d)`: it panics when `d` is not positive, and otherwise returns a
ticker of period `d`. -/
def NewTicker (d : Int) : Option Int := if d ≤ 0 then none else some d

/-! ## Files -/

/-- The file system shared by all cycles of the process: the contents at each path, `none`
where there is no file. -/
abbrev FileSys := String → Option (List Char)

/-- A write of `bytes` at offset `off` into a file with contents `content`, as the system
call does it: bytes in range are overwritten, and a gap between the end of the file and the
offset reads as zero bytes. Writing nothing changes nothing. -/
def writeAt (content : List Char) (off : Nat) (bytes : List Char) : List Char :=
  if bytes = [] then content
  else content.take off ++ List.replicate (off - content.length) (Char.ofNat 0) ++ bytes ++
    content.drop (off + bytes.length)

/-- The two things a cycle does to the file system: `os.Create(path)`, which creates the
file or truncates an existing one, and a write through its handle at the handle's offset. -/
inductive FsOp
  | create (path : String)
  | write (path : String) (off : Nat) (bytes : List Char)
  deriving DecidableEq, Repr

/-- The path an operation acts on. -/
def FsOp.path : FsOp → String
  | FsOp.create p => p
  | FsOp.write p _ _ => p

/-- The effect of an operation on the file system. -/
def FsOp.apply (op : FsOp) (fs : FileSys) : FileSys :=
  match op with
  | FsOp.create p => fun q => if q = p then some [] else fs q
  | FsOp.write p off bytes =>
    fun q => if q = p then some (writeAt ((fs p).getD []) off bytes) else fs q

/-- The outcome of one `Write` call on the file: every byte is written, or the call returns
an error after writing only the first `k` bytes (always fewer than asked). -/
inductive WriteResult
  | ok
  | short (k : Nat)
  deriving DecidableEq, Repr

/-! ## One collection cycle (`runCollection`) -/

/-- The lines `runCollection` writes to the log. -/
inductive LogLine
  /-- Log line "Starting collection cycle for %d seconds". -/
  | startingCycle (secs : Int)
  /-- Log line "Error creating output file: %v". -/
  | createError
  /-- Log line "Error encoding event: %v". -/
  | encodeError
  /-- Log line "Event: %s [PID: %d]". -/
  | event (type : String) (pid : Int)
  /-- Log line "Collection cycle complete: %d events collected -> %s". -/
  | cycleComplete (count : Nat) (path : String)
  deriving DecidableEq, Repr

/-- What happens next in the life of a cycle that is in its drain loop: `select` receives an
event from the channel (and `w` is what a `Write` on the file would do now), `select` takes
the timeout branch, or another cycle of the process acts on the shared file system. -/
inductive Ready
  | event (e : Event) (w : WriteResult)
  | timeout
  | foreign (op : FsOp)
  deriving DecidableEq, Repr

/-- The observable state of one cycle. `eventCount` is the Go `int` counter; it cannot
reach the 64-bit limit within a cycle and is kept as a natural number. -/
structure Cycle where
  /-- The source session was started: `go col.Start(events)`. -/
  started : Bool
  /-- The source session was stopped: `col.Stop()`. -/
  stopped : Bool
  /-- The value of `outputFile`. -/
  path : String
  /-- The call `os.Create(outputFile)` succeeded. -/
  created : Bool
  /-- The file system. -/
  fs : FileSys
  /-- The offset of the cycle's file handle. -/
  offset : Nat
  /-- The encoder holds a write error (`enc.err != nil`). -/
  encErr : Bool
  /-- The duration of the timer armed by `time.After`, in nanoseconds. -/
  timer : Option Int
  /-- The deferred `file.Close()` has run. -/
  closed : Bool
  eventCount : Nat
  /-- The dispatches `go sendToHTTP(endpoint, event)`, in order. -/
  forwarded : List (String × Event)
  logs : List LogLine
  /-- The function has returned. -/
  returned : Bool

/-- The contents of the file at the cycle's output path (empty when there is none). -/
def Cycle.file (c : Cycle) : List Char := (c.fs c.path).getD []

/-- The call `encoder.Encode(event)` of `encoding/json`. An encoder that holds an earlier
write error returns it at once. Otherwise the value is marshalled; on failure nothing is
written and the error is returned. Otherwise the encoding followed by a newline is written
to the file at the handle's offset; if the write fails part-way, the error is kept in the
encoder and returned. Returns the new state and whether an error was returned. -/
def Encode (marshal : Event → Option (List Char)) (st : Cycle) (e : Event)
    (w : WriteResult) : Cycle × Bool :=
  if st.encErr then (st, true)
  else
    match marshal e with
    | none => (st, true)
    | some s =>
      match w with
      | WriteResult.ok =>
        ({ st with
           fs := (FsOp.write st.path st.offset (s ++ ['\n'])).apply st.fs
           offset := st.offset + (s ++ ['\n']).length }, false)
      | WriteResult.short k =>
        ({ st with
           fs := (FsOp.write st.path st.offset ((s ++ ['\n']).take (min k s.length))).apply st.fs
           offset := st.offset + ((s ++ ['\n']).take (min k s.length)).length
           encErr := true }, true)

/-- The `case event := <-events` branch of the drain loop. -/
def onEvent (cfg : Config) (marshal : Event → Option (List Char)) (st : Cycle) (e : Event)
    (w : WriteResult) : Cycle :=
  let r := Encode marshal st e w
  let logs₁ := if r.2 then st.logs ++ [LogLine.encodeError] else st.logs
  let logs₂ := if cfg.Verbose then logs₁ ++ [LogLine.event e.Type_ e.PID] else logs₁
  { r.1 with
    eventCount := st.eventCount + 1
    logs := logs₂
    forwarded :=
      if cfg.HTTPEndpoint ≠ "" then st.forwarded ++ [(cfg.HTTPEndpoint, e)] else st.forwarded }

/-- The `case <-timeout` branch: log the count, stop the source, return (which runs the
deferred close of the file). -/
def onTimeout (st : Cycle) : Cycle :=
  { st with
    logs := st.logs ++ [LogLine.cycleComplete st.eventCount st.path]
    stopped := true
    closed := true
    returned := true }

/-- The drain loop `for { select { ... } }` over what happens while it runs. When the
sequence ends without a timeout the loop is still blocked in `select`. -/
def drain (cfg : Config) (marshal : Event → Option (List Char)) : Cycle → List Ready → Cycle
  | st, [] => st
  | st, Ready.event e w :: rest => drain cfg marshal (onEvent cfg marshal st e w) rest
  | st, Ready.timeout :: _ => onTimeout st
  | st, Ready.foreign op :: rest => drain cfg marshal { st with fs := op.apply st.fs } rest

/-- The function `runCollection`. `now` is the reading of `time.Now()`, `createOk` tells
whether `os.Create` succeeds, `fs` is the file system when the file is created, and `ready`
is what happens while the drain loop runs. -/
def runCollection (cfg : Config) (marshal : Event → Option (List Char)) (now : Time)
    (createOk : Bool) (fs : FileSys) (ready : List Ready) : Cycle :=
  let st₀ : Cycle :=
    { started := true
      stopped := false
      path := outputFile cfg now
      created := false
      fs := fs
      offset := 0
      encErr := false
      timer := none
      closed := false
      eventCount := 0
      forwarded := []
      logs := [LogLine.startingCycle cfg.SamplingOn]
      returned := false }
  if createOk then
    drain cfg marshal
      { st₀ with
        created := true
        fs := (FsOp.create (outputFile cfg now)).apply fs
        timer := some (cycleTimeout cfg) } ready
  else { st₀ with logs := st₀.logs ++ [LogLine.createError], returned := true }

/-- The records of a newline-delimited file: the segments that end in a newline. Characters
after the last newline do not form a record. -/
def records : List Char → List (List Char)
  | [] => []
  | c :: cs =>
    if c = '\n' then [] :: records cs
    else match records cs with
      | [] => []
      | r :: rs => (c :: r) :: rs

/-- The no-op `sendToHTTP` of `main.go`: a placeholder that discards its arguments. -/
def sendToHTTP (_endpoint : String) (_event : Event) : Unit := ()

/-- The events that the drain loop receives before the first timeout branch. -/
def receivedBefore : List Ready → List Event
  | [] => []
  | Ready.event e _ :: rest => e :: receivedBefore rest
  | Ready.timeout :: _ => []
  | Ready.foreign _ :: rest => receivedBefore rest

/-- Whether the timeout branch is taken at some point. -/
def timesOut : List Ready → Bool
  | [] => false
  | Ready.event _ _ :: rest => timesOut rest
  | Ready.timeout :: _ => true
  | Ready.foreign _ :: rest => timesOut rest

/-- Up to the first timeout, no other cycle acts on the file at `path`. -/
def Undisturbed (path : String) : List Ready → Prop
  | [] => True
  | Ready.event _ _ :: rest => Undisturbed path rest
  | Ready.timeout :: _ => True
  | Ready.foreign op :: rest => op.path ≠ path ∧ Undisturbed path rest

/-- Up to the first timeout, every write to the file succeeds and no other cycle acts on
the file at `path`. -/
def Quiet (path : String) : List Ready → Prop
  | [] => True
  | Ready.event _ w :: rest => w = WriteResult.ok ∧ Quiet path rest
  | Ready.timeout :: _ => True
  | Ready.foreign op :: rest => op.path ≠ path ∧ Quiet path rest

/-- The bytes that a sequence of encodings occupies in the file: each encoding followed by
one newline. -/
def ndjson (recs : List (List Char)) : List Char :=
  (recs.map fun r => r ++ ['\n']).flatten

/-- Encodings produced by `marshal` contain no raw newline, as is the case for the compact
output of `encoding/json`. -/
def Compact (marshal : Event → Option (List Char)) : Prop :=
  ∀ e s, marshal e = some s → '\n' ∉ s

/-- The state of the file while the drain loop runs and no other cycle touches it: the
encodings `good` written in full, followed by the newline-free bytes `tail` of a write that
failed part-way; as long as the encoder holds no error there is no such tail and the handle
is at the end of the file. -/
def DrainInv (st : Cycle) (good : List (List Char)) (tail : List Char) : Prop :=
  st.fs st.path = some (ndjson good ++ tail) ∧ '\n' ∉ tail ∧ (∀ r ∈ good, '\n' ∉ r) ∧
  (st.encErr = false → tail = [] ∧ st.offset = (ndjson good).length)

/-! ## Loading the configuration (`loadConfig`) -/

/-- The parsed values of the command-line flags declared at the top of `main.go`. -/
structure Flags where
  configFile : String
  outputDir : String
  samplingOn : Int
  samplingOff : Int
  httpEndpoint : String
  verbose : Bool
  deriving DecidableEq, Repr

/-- The flag defaults declared in `main.go`. -/
def Flags.defaults : Flags :=
  { configFile := ""
    outputDir := "/var/log/sds-observer"
    samplingOn := 60
    samplingOff := 240
    httpEndpoint := ""
    verbose := false }

/-- A JSON number literal: an integer literal, or a literal with a fraction or an exponent
(which `strconv.ParseInt` rejects). -/
inductive JNumber
  | int (n : Int)
  | real
  deriving DecidableEq, Repr

/-- A syntactically well-formed JSON value. Object members are kept in file order. -/
inductive JValue
  | null
  | bool (b : Bool)
  | number (n : JNumber)
  | string (s : String)
  | array (items : List JValue)
  | object (members : List (String × JValue))

/-- Whether the value is the literal `null`. -/
def JValue.isNull : JValue → Bool
  | JValue.null => true
  | _ => false

/-- The fields of `config.Config`. -/
inductive Field
  | OutputDir
  | SamplingOn
  | SamplingOff
  | HTTPEndpoint
  | Verbose
  | MonitorProcesses
  | MonitorSyscalls
  | MonitorNetwork
  | ContainerRuntime
  deriving DecidableEq, Repr

/-- The JSON key of each field, from the struct tags in `config.go`. -/
def Field.tag : Field → String
  | Field.OutputDir => "output_dir"
  | Field.SamplingOn => "sampling_on"
  | Field.SamplingOff => "sampling_off"
  | Field.HTTPEndpoint => "http_endpoint"
  | Field.Verbose => "verbose"
  | Field.MonitorProcesses => "monitor_processes"
  | Field.MonitorSyscalls => "monitor_syscalls"
  | Field.MonitorNetwork => "monitor_network"
  | Field.ContainerRuntime => "container_runtime"

/-- All fields, in declaration order. -/
def Field.all : List Field :=
  [Field.OutputDir, Field.SamplingOn, Field.SamplingOff, Field.HTTPEndpoint, Field.Verbose,
   Field.MonitorProcesses, Field.MonitorSyscalls, Field.MonitorNetwork, Field.ContainerRuntime]

/-- Case folding of one character as `encoding/json` does it for key matching: ASCII
letters fold to upper case, and the Kelvin sign and the long s fold to `K` and `S`. -/
def foldRune (c : Char) : Char :=
  if c = Char.ofNat 0x212A then 'K'
  else if c = Char.ofNat 0x17F then 'S'
  else c.toUpper

/-- The folded form of a key. -/
def foldName (s : String) : List Char := s.data.map foldRune

/-- The struct field a JSON key decodes into: a field whose tag is the key exactly, or
else one whose tag equals the key up to case folding; `none` for an unknown key, which the
decoder skips. -/
def lookupField (key : String) : Option Field :=
  match Field.all.find? (fun f => f.tag = key) with
  | some f => some f
  | none => Field.all.find? (fun f => foldName f.tag = foldName key)

/-- The least value of a 64-bit Go `int`. -/
def minInt : Int := -(2 ^ 63)

/-- The greatest value of a 64-bit Go `int`. -/
def maxInt : Int := 2 ^ 63 - 1

/-- Decoding one JSON value into one field. `null` leaves the field as it is; a value of
the field's type is stored; anything else (including an integer out of the `int` range)
leaves the field and records a type error. Returns the struct and whether an error was
recorded. -/
def setField (cfg : Config) (f : Field) (v : JValue) : Config × Bool :=
  match f, v with
  | _, JValue.null => (cfg, false)
  | Field.OutputDir, JValue.string s => ({ cfg with OutputDir := s }, false)
  | Field.SamplingOn, JValue.number (JNumber.int n) =>
    if minInt ≤ n ∧ n ≤ maxInt then ({ cfg with SamplingOn := n }, false) else (cfg, true)
  | Field.SamplingOff, JValue.number (JNumber.int n) =>
    if minInt ≤ n ∧ n ≤ maxInt then ({ cfg with SamplingOff := n }, false) else (cfg, true)
  | Field.HTTPEndpoint, JValue.string s => ({ cfg with HTTPEndpoint := s }, false)
  | Field.Verbose, JValue.bool b => ({ cfg with Verbose := b }, false)
  | Field.MonitorProcesses, JValue.bool b => ({ cfg with MonitorProcesses := b }, false)
  | Field.MonitorSyscalls, JValue.bool b => ({ cfg with MonitorSyscalls := b }, false)
  | Field.MonitorNetwork, JValue.bool b => ({ cfg with MonitorNetwork := b }, false)
  | Field.ContainerRuntime, JValue.string s => ({ cfg with ContainerRuntime := s }, false)
  | _, _ => (cfg, true)

/-- Decoding one object member: unknown keys are skipped, known keys are decoded into
their field; a recorded error stays recorded. -/
def decodeMember (acc : Config × Bool) (kv : String × JValue) : Config × Bool :=
  match lookupField kv.1 with
  | none => acc
  | some f => ((setField acc.1 f kv.2).1, acc.2 || (setField acc.1 f kv.2).2)

/-- Go's `json.Unmarshal(file, cfg)` for well-formed input: `null` is a no-op, an object is
decoded member by member in file order, any other value is a type error. Returns the
struct and whether an error is returned. -/
def Unmarshal (v : JValue) (cfg : Config) : Config × Bool :=
  match v with
  | JValue.null => (cfg, false)
  | JValue.object members => members.foldl decodeMember (cfg, false)
  | _ => (cfg, true)

/-- What reading and scanning the configuration file yields: a read error, bytes that are
not well-formed JSON, or a well-formed JSON value. -/
inductive FileRead
  | unreadable
  | malformed
  | json (v : JValue)

/-- The configuration seeded from the flags, before the file is applied. -/
def flagSeeded (flags : Flags) : Config :=
  { OutputDir := flags.outputDir
    SamplingOn := flags.samplingOn
    SamplingOff := flags.samplingOff
    HTTPEndpoint := flags.httpEndpoint
    Verbose := flags.verbose
    MonitorProcesses := false
    MonitorSyscalls := false
    MonitorNetwork := false
    ContainerRuntime := "" }

/-- The function `loadConfig`. `readFile` gives the outcome of `os.ReadFile` on a path,
together with the syntax check that `json.Unmarshal` performs first. -/
def loadConfig (flags : Flags) (readFile : String → FileRead) : Except String Config :=
  if flags.configFile ≠ "" then
    match readFile flags.configFile with
    | FileRead.unreadable => Except.error "read config file"
    | FileRead.malformed => Except.error "parse config file"
    | FileRead.json v =>
      if (Unmarshal v (flagSeeded flags)).2 then Except.error "parse config file"
      else Except.ok (Unmarshal v (flagSeeded flags)).1
  else Except.ok (flagSeeded flags)

/-- The value of a field, as the JSON value that would set it. -/
def Config.get (cfg : Config) : Field → JValue
  | Field.OutputDir => JValue.string cfg.OutputDir
  | Field.SamplingOn => JValue.number (JNumber.int cfg.SamplingOn)
  | Field.SamplingOff => JValue.number (JNumber.int cfg.SamplingOff)
  | Field.HTTPEndpoint => JValue.string cfg.HTTPEndpoint
  | Field.Verbose => JValue.bool cfg.Verbose
  | Field.MonitorProcesses => JValue.bool cfg.MonitorProcesses
  | Field.MonitorSyscalls => JValue.bool cfg.MonitorSyscalls
  | Field.MonitorNetwork => JValue.bool cfg.MonitorNetwork
  | Field.ContainerRuntime => JValue.string cfg.ContainerRuntime

/-- Whether a JSON value has the type of a field: a string, a boolean, or an integer literal
within the range of `int`. -/
def Field.accepts : Field → JValue → Bool
  | Field.OutputDir, JValue.string _ => true
  | Field.SamplingOn, JValue.number (JNumber.int n) => decide (minInt ≤ n ∧ n ≤ maxInt)
  | Field.SamplingOff, JValue.number (JNumber.int n) => decide (minInt ≤ n ∧ n ≤ maxInt)
  | Field.HTTPEndpoint, JValue.string _ => true
  | Field.Verbose, JValue.bool _ => true
  | Field.MonitorProcesses, JValue.bool _ => true
  | Field.MonitorSyscalls, JValue.bool _ => true
  | Field.MonitorNetwork, JValue.bool _ => true
  | Field.ContainerRuntime, JValue.string _ => true
  | _, _ => false

/-- The value the file gives to a field: that of the last member whose key names the field
and whose value is not `null`, if there is one. -/
def fileValue : List (String × JValue) → Field → Option JValue
  | [], _ => none
  | kv :: rest, f =>
    match fileValue rest f with
    | some v => some v
    | none => if lookupField kv.1 = some f ∧ kv.2.isNull = false then some kv.2 else none

/-- Every member that names a field gives it `null` or a value of the field's type. -/
def WellTyped (members : List (String × JValue)) : Prop :=
  ∀ kv ∈ members, ∀ f, lookupField kv.1 = some f → kv.2.isNull = true ∨ f.accepts kv.2 = true

/-! ## The scheduler (`main`) -/

/-- What the select loop of `main` handles: a tick of the ticker or a stop signal. -/
inductive Signal
  | tick
  | stop
  deriving DecidableEq, Repr

/-- How a run of `main` ends. -/
inductive Outcome
  /-- The process exits through `log.Fatalf`. -/
  | fatal (msg : String)
  /-- The call `time.NewTicker` panics. -/
  | panicked
  /-- A stop signal was handled and `main` returned. -/
  | shutdown
  /-- The loop waits in `select` for the next input. -/
  | waiting
  deriving DecidableEq, Repr

/-- The observable result of `main`: how it ended, the period of the armed ticker in
nanoseconds, and the number of `go runCollection(col, cfg)` statements executed. -/
structure MainResult where
  outcome : Outcome
  ticker : Option Int
  launched : Nat
  deriving DecidableEq, Repr

/-- The loop `for { select { case <-ticker.C: ...; case <-stop: ... } }` over the inputs it
handles, starting from `launched` cycles. Returns the number of cycles launched and whether
the loop returned. -/
def selectLoop : List Signal → Nat → Nat × Bool
  | [], launched => (launched, false)
  | Signal.tick :: rest, launched => selectLoop rest (launched + 1)
  | Signal.stop :: _, launched => (launched, true)

/-- The function `main`. `mkdirOk` and `newCollectorOk` tell whether `os.MkdirAll` and
`collector.NewCollector` succeed; `signals` are the inputs the select loop handles. -/
def main (flags : Flags) (readFile : String → FileRead) (mkdirOk newCollectorOk : Bool)
    (signals : List Signal) : MainResult :=
  match loadConfig flags readFile with
  | Except.error _ => ⟨Outcome.fatal "Failed to load config", none, 0⟩
  | Except.ok cfg =>
    if mkdirOk = false then ⟨Outcome.fatal "Failed to create output directory", none, 0⟩
    else if newCollectorOk = false then ⟨Outcome.fatal "Failed to create collector", none, 0⟩
    else
      match NewTicker (tickerPeriod cfg) with
      | none => ⟨Outcome.panicked, none, 0⟩
      | some d =>
        ⟨if (selectLoop signals 1).2 then Outcome.shutdown else Outcome.waiting, some d,
          (selectLoop signals 1).1⟩

/-! ## Sample inputs used to instantiate the theorems -/

/-- A sample serialiser: events with a negative process id fail to serialise. -/
def sampleMarshal (e : Event) : Option (List Char) :=
  if e.PID < 0 then none else some ['e', 'v']

/-- A sample wall-clock reading: 7 March 2024, 09:05:01.000000123. -/
def sampleTime : Time := ⟨2024, 3, 7, 9, 5, 1, 123⟩

/-- A sample serialisable event. -/
def sampleEvent : Event := ⟨"exec", 4242, ""⟩

/-- A sample event that `sampleMarshal` rejects. -/
def badEvent : Event := ⟨"exec", -1, ""⟩

/-! ## The cycle with its channel and producer -/

/-- An empty file system. -/
def noFs : FileSys := fun _ => none

/-- Sample flags: both sampling durations zero, no configuration file. -/
def zeroFlags : Flags := { Flags.defaults with samplingOn := 0, samplingOff := 0 }

/-- Sample flags: a sampling duration of 18446744074 seconds, whose nanosecond count
exceeds the 64-bit range. -/
def hugeFlags : Flags := { Flags.defaults with samplingOn := 18446744074, samplingOff := 0 }

/-- A file system without any readable file. -/
def noFiles : String → FileRead := fun _ => FileRead.unreadable

/-- Sample flags naming a configuration file and an HTTP endpoint. -/
def fileFlags : Flags :=
  { Flags.defaults with configFile := "observer.json", httpEndpoint := "http://sink" }

/-- A configuration file whose `sampling_on` is the string "60" instead of a number. -/
def mistypedFile : String → FileRead := fun _ =>
  FileRead.json (JValue.object [("sampling_on", JValue.string "60")])

/-- A configuration file that names `http_endpoint` with the value `null`. -/
def nullFile : String → FileRead := fun _ =>
  FileRead.json (JValue.object [("http_endpoint", JValue.null)])

/-- The members of a well-typed sample configuration file; the key `extra` is unknown and
`Verbose` matches its field up to case. -/
def sampleMembers : List (String × JValue) :=
  [("sampling_on", JValue.number (JNumber.int 30)), ("extra", JValue.array []),
   ("Verbose", JValue.bool true)]

/-- A configuration file with the members `sampleMembers`. -/
def sampleFile : String → FileRead := fun _ => FileRead.json (JValue.object sampleMembers)

/-- A second wall-clock reading, half a second after `sampleTime`. -/
def sampleTimeLater : Time := { sampleTime with nsec := 500000123 }

/-- A cycle started at `sampleTime` that receives one event and writes it, then sees a cycle
started at `sampleTimeLater` create its output file, then times out. -/
def overlappedRun : List Ready :=
  [Ready.event sampleEvent WriteResult.ok,
   Ready.foreign (FsOp.create (outputFile Default sampleTimeLater)),
   Ready.timeout]

/-- A cycle whose first write fails after one byte, followed by a second event and the
timeout. -/
def failedWriteRun : List Ready :=
  [Ready.event sampleEvent (WriteResult.short 1),
   Ready.event sampleEvent WriteResult.ok,
   Ready.timeout]

/-- A cycle that receives `events`, every write succeeding, and then times out. -/
def quietRun (events : List Event) : List Ready :=
  events.map (fun e => Ready.event e WriteResult.ok) ++ [Ready.timeout]

/-- Sample flags whose sampling durations sum to five seconds although the on-duration
alone exceeds what fits in a 64-bit nanosecond count. -/
def gapFlags : Flags :=
  { Flags.defaults with samplingOn := 10000000000, samplingOff := -9999999995 }

/-- The path elements of the default output directory. -/
def defaultDirElems : List (List Char) := ["var".data, "log".data, "sds-observer".data]

/-! # Theorems -/

/-! ## Records and files -/

theorem ndjson_nil : ndjson [] = [] := rfl

theorem ndjson_cons (r : List Char) (rs : List (List Char)) :
    ndjson (r :: rs) = r ++ '\n' :: ndjson rs := by
  simp [ndjson]

theorem ndjson_append (a b : List (List Char)) : ndjson (a ++ b) = ndjson a ++ ndjson b := by
  simp [ndjson]

theorem records_no_newline (tail : List Char) (h : '\n' ∉ tail) : records tail = [] := by
  induction tail with
  | nil => rfl
  | cons c cs ih =>
    have hc : c ≠ '\n' := fun hcn => h (by simp [hcn])
    have hcs : '\n' ∉ cs := fun hm => h (List.mem_cons_of_mem _ hm)
    simp [records, hc, ih hcs]

theorem records_append_newline (r rest : List Char) (h : '\n' ∉ r) :
    records (r ++ '\n' :: rest) = r :: records rest := by
  induction r with
  | nil => simp [records]
  | cons c cs ih =>
    have hc : c ≠ '\n' := fun hcn => h (by simp [hcn])
    have hcs : '\n' ∉ cs := fun hm => h (List.mem_cons_of_mem _ hm)
    simp [records, hc, ih hcs]

theorem records_ndjson_tail (recs : List (List Char)) (tail : List Char)
    (h : ∀ r ∈ recs, '\n' ∉ r) (ht : '\n' ∉ tail) :
    records (ndjson recs ++ tail) = recs := by
  induction recs with
  | nil => simpa [ndjson_nil] using records_no_newline tail ht
  | cons r rs ih =>
    rw [ndjson_cons, List.append_assoc, List.cons_append,
      records_append_newline r _ (h r (List.mem_cons_self _ _)),
      ih (fun x hx => h x (List.mem_cons_of_mem _ hx))]

theorem records_ndjson (recs : List (List Char)) (h : ∀ r ∈ recs, '\n' ∉ r) :
    records (ndjson recs) = recs := by
  have := records_ndjson_tail recs [] h (by simp)
  simpa using this

theorem writeAt_end (content bytes : List Char) :
    writeAt content content.length bytes = content ++ bytes := by
  unfold writeAt
  by_cases hb : bytes = []
  · simp [hb]
  · simp [hb]

theorem apply_other (op : FsOp) (fs : FileSys) (q : String) (h : op.path ≠ q) :
    op.apply fs q = fs q := by
  have h' : ¬ q = op.path := fun e => h e.symm
  cases op <;> simp [FsOp.apply, FsOp.path] at h' ⊢ <;> simp [h']

theorem apply_write_same (p : String) (off : Nat) (bytes : List Char) (fs : FileSys) :
    (FsOp.write p off bytes).apply fs p = some (writeAt ((fs p).getD []) off bytes) := by
  simp [FsOp.apply]

theorem filterMap_length_add (marshal : Event → Option (List Char)) (events : List Event) :
    (events.filterMap marshal).length + (events.filter fun e => (marshal e).isNone).length =
      events.length := by
  induction events with
  | nil => rfl
  | cons e es ih =>
    cases hm : marshal e with
    | none => simp [List.filterMap_cons, List.filter_cons, hm]; omega
    | some s => simp [List.filterMap_cons, List.filter_cons, hm]; omega

theorem filterMap_of_all_some (marshal : Event → Option (List Char)) (events : List Event)
    (h : ∀ e ∈ events, (marshal e).isSome) :
    (events.filterMap marshal).map some = events.map marshal := by
  induction events with
  | nil => rfl
  | cons e es ih =>
    have he := h e (List.mem_cons_self _ _)
    obtain ⟨s, hs⟩ := Option.isSome_iff_exists.mp he
    simp [List.filterMap_cons, hs, ih (fun x hx => h x (List.mem_cons_of_mem _ hx))]

theorem mem_filterMap_compact (marshal : Event → Option (List Char)) (hc : Compact marshal)
    (events : List Event) : ∀ r ∈ events.filterMap marshal, '\n' ∉ r := by
  intro r hr
  obtain ⟨e, _, he⟩ := List.mem_filterMap.mp hr
  exact hc e r he

/-! ## Lemmas on the drain loop -/

theorem Encode_frame (marshal : Event → Option (List Char)) (st : Cycle) (e : Event)
    (w : WriteResult) :
    (Encode marshal st e w).1.path = st.path ∧
    (Encode marshal st e w).1.created = st.created ∧
    (Encode marshal st e w).1.started = st.started ∧
    (Encode marshal st e w).1.timer = st.timer ∧
    (Encode marshal st e w).1.stopped = st.stopped ∧
    (Encode marshal st e w).1.closed = st.closed ∧
    (Encode marshal st e w).1.returned = st.returned ∧
    (Encode marshal st e w).1.eventCount = st.eventCount ∧
    (Encode marshal st e w).1.forwarded = st.forwarded ∧
    (Encode marshal st e w).1.logs = st.logs := by
  unfold Encode
  cases st.encErr <;> cases marshal e <;> cases w <;> simp

theorem onEvent_frame (cfg : Config) (marshal : Event → Option (List Char)) (st : Cycle)
    (e : Event) (w : WriteResult) :
    (onEvent cfg marshal st e w).path = st.path ∧
    (onEvent cfg marshal st e w).created = st.created ∧
    (onEvent cfg marshal st e w).started = st.started ∧
    (onEvent cfg marshal st e w).timer = st.timer ∧
    (onEvent cfg marshal st e w).eventCount = st.eventCount + 1 := by
  have h := Encode_frame marshal st e w
  simp [onEvent, h.1, h.2.1, h.2.2.1, h.2.2.2.1]

theorem drain_eventCount (cfg : Config) (marshal : Event → Option (List Char)) (st : Cycle)
    (ready : List Ready) :
    (drain cfg marshal st ready).eventCount =
      st.eventCount + (receivedBefore ready).length := by
  induction ready generalizing st with
  | nil => simp [drain, receivedBefore]
  | cons r rest ih =>
    cases r with
    | timeout => simp [drain, onTimeout, receivedBefore]
    | foreign op => rw [drain, ih]; simp [receivedBefore]
    | event e w =>
      rw [drain, ih, (onEvent_frame cfg marshal st e w).2.2.2.2]
      simp [receivedBefore]
      omega

theorem drain_forwarded (cfg : Config) (marshal : Event → Option (List Char)) (st : Cycle)
    (ready : List Ready) :
    (drain cfg marshal st ready).forwarded =
      st.forwarded ++
        (if cfg.HTTPEndpoint ≠ "" then
          (receivedBefore ready).map fun e => (cfg.HTTPEndpoint, e)
        else []) := by
  induction ready generalizing st with
  | nil => simp [drain, receivedBefore]
  | cons r rest ih =>
    cases r with
    | timeout => simp [drain, onTimeout, receivedBefore]
    | foreign op => rw [drain, ih]; simp [receivedBefore]
    | event e w =>
      rw [drain, ih]
      by_cases hep : cfg.HTTPEndpoint = "" <;> simp [onEvent, receivedBefore, hep]

theorem drain_created (cfg : Config) (marshal : Event → Option (List Char)) (st : Cycle)
    (ready : List Ready) :
    (drain cfg marshal st ready).created = st.created ∧
      (drain cfg marshal st ready).path = st.path ∧
      (drain cfg marshal st ready).started = st.started ∧
      (drain cfg marshal st ready).timer = st.timer := by
  induction ready generalizing st with
  | nil => simp [drain]
  | cons r rest ih =>
    cases r with
    | timeout => simp [drain, onTimeout]
    | foreign op =>
      rw [drain]
      exact ih _
    | event e w =>
      rw [drain]
      have h := onEvent_frame cfg marshal st e w
      have := ih (onEvent cfg marshal st e w)
      rw [h.1, h.2.1, h.2.2.1, h.2.2.2.1] at this
      exact this

theorem drain_returns (cfg : Config) (marshal : Event → Option (List Char)) (st : Cycle)
    (ready : List Ready) (h : timesOut ready = true) :
    (drain cfg marshal st ready).returned = true ∧
    (drain cfg marshal st ready).stopped = true ∧
    (drain cfg marshal st ready).closed = true ∧
    (drain cfg marshal st ready).logs.getLast? =
      some (LogLine.cycleComplete (st.eventCount + (receivedBefore ready).length) st.path) := by
  induction ready generalizing st with
  | nil => simp [timesOut] at h
  | cons r rest ih =>
    cases r with
    | timeout => simp [drain, onTimeout, receivedBefore]
    | foreign op =>
      rw [drain]
      exact ih _ (by simpa [timesOut] using h)
    | event e w =>
      rw [drain]
      have hf := onEvent_frame cfg marshal st e w
      have := ih (onEvent cfg marshal st e w) (by simpa [timesOut] using h)
      rw [hf.1, hf.2.2.2.2] at this
      refine ⟨this.1, this.2.1, this.2.2.1, ?_⟩
      rw [this.2.2.2]
      simp [receivedBefore]
      omega

theorem drain_erase_forwarded (cfg : Config) (marshal : Event → Option (List Char))
    (st : Cycle) (ready : List Ready) :
    { drain cfg marshal st ready with forwarded := [] } =
      drain { cfg with HTTPEndpoint := "" } marshal { st with forwarded := [] } ready := by
  induction ready generalizing st with
  | nil => rfl
  | cons r rest ih =>
    cases r with
    | timeout => simp [drain, onTimeout]
    | foreign op =>
      rw [drain, drain, ih]
    | event e w =>
      rw [drain, drain, ih]
      congr 1
      unfold onEvent Encode
      cases hE : st.encErr <;> cases hm : marshal e <;> cases w <;> simp [hE, hm]

theorem runCollection_erase_forwarded (cfg : Config) (marshal : Event → Option (List Char))
    (now : Time) (createOk : Bool) (fs : FileSys) (ready : List Ready) :
    { runCollection cfg marshal now createOk fs ready with forwarded := [] } =
      runCollection { cfg with HTTPEndpoint := "" } marshal now createOk fs ready := by
  cases createOk with
  | false => simp [runCollection, outputFile]
  | true =>
    simp only [runCollection, if_true]
    rw [drain_erase_forwarded]
    rfl

theorem onEvent_quiet (cfg : Config) (marshal : Event → Option (List Char)) (st : Cycle)
    (e : Event) (content : List Char) (herr : st.encErr = false)
    (hfs : st.fs st.path = some content) (hoff : st.offset = content.length) :
    (onEvent cfg marshal st e WriteResult.ok).encErr = false ∧
    (onEvent cfg marshal st e WriteResult.ok).fs st.path =
      some (content ++ ndjson ([e].filterMap marshal)) ∧
    (onEvent cfg marshal st e WriteResult.ok).offset =
      (content ++ ndjson ([e].filterMap marshal)).length ∧
    (onEvent cfg marshal st e WriteResult.ok).logs.count LogLine.encodeError =
      st.logs.count LogLine.encodeError + ([e].filter fun x => (marshal x).isNone).length := by
  cases hm : marshal e with
  | none =>
    cases hv : cfg.Verbose <;>
      simp [onEvent, Encode, herr, hm, hv, hfs, hoff, ndjson_nil, List.count_append,
        List.filter_cons]
  | some s =>
    have hw : writeAt content content.length (s ++ ['\n']) = content ++ (s ++ ['\n']) :=
      writeAt_end _ _
    cases hv : cfg.Verbose <;>
      simp [onEvent, Encode, herr, hm, hv, hfs, hoff, ndjson_cons, ndjson_nil,
        List.count_append, List.filter_cons, apply_write_same, hw]

theorem drain_quiet (cfg : Config) (marshal : Event → Option (List Char)) (st : Cycle)
    (ready : List Ready) (content : List Char) (hq : Quiet st.path ready)
    (herr : st.encErr = false) (hfs : st.fs st.path = some content)
    (hoff : st.offset = content.length) :
    (drain cfg marshal st ready).fs st.path =
      some (content ++ ndjson ((receivedBefore ready).filterMap marshal)) ∧
    (drain cfg marshal st ready).logs.count LogLine.encodeError =
      st.logs.count LogLine.encodeError +
        ((receivedBefore ready).filter fun e => (marshal e).isNone).length := by
  induction ready generalizing st content with
  | nil => simp [drain, receivedBefore, ndjson_nil, hfs]
  | cons r rest ih =>
    cases r with
    | timeout => simp [drain, onTimeout, receivedBefore, ndjson_nil, hfs, List.count_append]
    | foreign op =>
      obtain ⟨hop, hq'⟩ := hq
      rw [drain]
      have := ih { st with fs := op.apply st.fs } content hq' herr
        (by simpa [apply_other op st.fs st.path hop] using hfs) hoff
      simpa [receivedBefore] using this
    | event e w =>
      obtain ⟨hw, hq'⟩ := hq
      subst hw
      rw [drain]
      obtain ⟨h1, h2, h3, h4⟩ := onEvent_quiet cfg marshal st e content herr hfs hoff
      have hp := (onEvent_frame cfg marshal st e WriteResult.ok).1
      have := ih (onEvent cfg marshal st e WriteResult.ok) _ (by rw [hp]; exact hq') h1
        (by rw [hp]; exact h2) h3
      rw [hp] at this
      refine ⟨?_, ?_⟩
      · rw [this.1]
        simp only [receivedBefore, List.append_assoc, ← ndjson_append]
        congr 3
        cases hm : marshal e <;> simp [List.filterMap_cons, hm]
      · rw [this.2, h4]
        cases hm : marshal e <;> simp [receivedBefore, List.filter_cons, hm]
        omega

theorem take_no_newline (s : List Char) (k : Nat) (h : '\n' ∉ s) :
    '\n' ∉ (s ++ ['\n']).take (min k s.length) := by
  have hk : min k s.length ≤ s.length := Nat.min_le_right _ _
  rw [List.take_append_of_le_length hk]
  exact fun hm => h (List.mem_of_mem_take hm)

theorem onEvent_undisturbed (cfg : Config) (marshal : Event → Option (List Char))
    (hc : Compact marshal) (st : Cycle) (e : Event) (w : WriteResult)
    (good : List (List Char)) (tail : List Char) (h : DrainInv st good tail) :
    ∃ good' tail', DrainInv (onEvent cfg marshal st e w) good' tail' ∧
      (onEvent cfg marshal st e w).eventCount + good.length +
          st.logs.count LogLine.encodeError =
        st.eventCount + good'.length +
          (onEvent cfg marshal st e w).logs.count LogLine.encodeError := by
  obtain ⟨hfs, htail, hgood, hoff⟩ := h
  cases hE : st.encErr with
  | true =>
    refine ⟨good, tail, ⟨?_, htail, hgood, ?_⟩, ?_⟩
    · simpa [onEvent, Encode, hE] using hfs
    · simp [onEvent, Encode, hE]
    · cases hv : cfg.Verbose <;> simp [onEvent, Encode, hE, hv, List.count_append] <;> omega
  | false =>
    obtain ⟨ht, ho⟩ := hoff hE
    subst ht
    simp only [List.append_nil] at hfs
    cases hm : marshal e with
    | none =>
      refine ⟨good, [], ⟨?_, htail, hgood, ?_⟩, ?_⟩
      · simpa [onEvent, Encode, hE, hm] using hfs
      · intro _
        simpa [onEvent, Encode, hE, hm] using ho
      · cases hv : cfg.Verbose <;> simp [onEvent, Encode, hE, hm, hv, List.count_append] <;>
          omega
    | some s =>
      have hs : '\n' ∉ s := hc e s hm
      cases w with
      | ok =>
        have hw : writeAt (ndjson good) (ndjson good).length (s ++ ['\n']) =
            ndjson good ++ (s ++ ['\n']) := writeAt_end _ _
        refine ⟨good ++ [s], [], ⟨?_, by simp, ?_, ?_⟩, ?_⟩
        · simp [onEvent, Encode, hE, hm, apply_write_same, hfs, ho, hw, ndjson_append,
            ndjson_cons, ndjson_nil]
        · intro r hr
          rcases List.mem_append.mp hr with h1 | h1
          · exact hgood r h1
          · simp at h1
            subst h1
            exact hs
        · intro _
          simp [onEvent, Encode, hE, hm, ho, ndjson_append, ndjson_cons, ndjson_nil]
        · cases hv : cfg.Verbose <;> simp [onEvent, Encode, hE, hm, hv, List.count_append] <;>
            omega
      | short k =>
        have hw : writeAt (ndjson good) (ndjson good).length
            ((s ++ ['\n']).take (min k s.length)) =
            ndjson good ++ (s ++ ['\n']).take (min k s.length) := writeAt_end _ _
        refine ⟨good, (s ++ ['\n']).take (min k s.length),
          ⟨?_, take_no_newline s k hs, hgood, ?_⟩, ?_⟩
        · simp [onEvent, Encode, hE, hm, apply_write_same, hfs, ho, hw]
        · simp [onEvent, Encode, hE, hm]
        · cases hv : cfg.Verbose <;> simp [onEvent, Encode, hE, hm, hv, List.count_append] <;>
            omega

theorem drain_undisturbed (cfg : Config) (marshal : Event → Option (List Char))
    (hc : Compact marshal) (st : Cycle) (ready : List Ready)
    (good : List (List Char)) (tail : List Char) (hu : Undisturbed st.path ready)
    (h : DrainInv st good tail) :
    ∃ good' tail', DrainInv (drain cfg marshal st ready) good' tail' ∧
      (drain cfg marshal st ready).eventCount + good.length +
          st.logs.count LogLine.encodeError =
        st.eventCount + good'.length +
          (drain cfg marshal st ready).logs.count LogLine.encodeError := by
  induction ready generalizing st good tail with
  | nil => exact ⟨good, tail, by simpa [drain] using h, by simp [drain]⟩
  | cons r rest ih =>
    cases r with
    | timeout =>
      refine ⟨good, tail, ?_, ?_⟩
      · simpa [drain, onTimeout, DrainInv] using h
      · simp [drain, onTimeout, List.count_append]
    | foreign op =>
      obtain ⟨hop, hu'⟩ := hu
      rw [drain]
      have hinv : DrainInv { st with fs := op.apply st.fs } good tail := by
        obtain ⟨hfs, htail, hgood, hoff⟩ := h
        exact ⟨by simpa [apply_other op st.fs st.path hop] using hfs, htail, hgood, hoff⟩
      exact ih _ good tail hu' hinv
    | event e w =>
      rw [drain]
      obtain ⟨g1, t1, hinv1, hcnt1⟩ := onEvent_undisturbed cfg marshal hc st e w good tail h
      have hp := (onEvent_frame cfg marshal st e w).1
      obtain ⟨g2, t2, hinv2, hcnt2⟩ := ih (onEvent cfg marshal st e w) g1 t1
        (by rw [hp]; exact hu) hinv1
      exact ⟨g2, t2, hinv2, by omega⟩

/-- What a cycle does to the file system in its drain loop is a sequence of writes at its
own output path. -/
theorem drain_fs_ops (cfg : Config) (marshal : Event → Option (List Char)) (st : Cycle)
    (ready : List Ready) (h : ∀ r ∈ ready, ∀ op, r ≠ Ready.foreign op) :
    ∃ ops : List FsOp, (∀ op ∈ ops, op.path = st.path) ∧
      (drain cfg marshal st ready).fs = ops.foldl (fun f op => op.apply f) st.fs := by
  induction ready generalizing st with
  | nil => exact ⟨[], by simp, rfl⟩
  | cons r rest ih =>
    have hrest : ∀ r ∈ rest, ∀ op, r ≠ Ready.foreign op :=
      fun x hx => h x (List.mem_cons_of_mem _ hx)
    cases r with
    | timeout => exact ⟨[], by simp, rfl⟩
    | foreign op => exact absurd rfl (h _ (List.mem_cons_self _ _) op)
    | event e w =>
      rw [drain]
      obtain ⟨ops, hops, hfs⟩ := ih (onEvent cfg marshal st e w) hrest
      have hp := (onEvent_frame cfg marshal st e w).1
      rw [hp] at hops
      have hstep : (onEvent cfg marshal st e w).fs = st.fs ∨
          ∃ bytes, (onEvent cfg marshal st e w).fs =
            (FsOp.write st.path st.offset bytes).apply st.fs := by
        unfold onEvent Encode
        cases hE : st.encErr <;> cases hm : marshal e <;> cases w <;> simp [hE, hm] <;>
          exact Or.inr ⟨_, rfl⟩
      rcases hstep with h0 | ⟨bytes, h1⟩
      · exact ⟨ops, hops, by rw [hfs, h0]⟩
      · refine ⟨FsOp.write st.path st.offset bytes :: ops, ?_, ?_⟩
        · intro op hop
          rcases List.mem_cons.mp hop with rfl | hop
          · rfl
          · exact hops op hop
        · rw [hfs, h1]
          rfl

theorem sampleMarshal_compact : Compact sampleMarshal := by
  intro e s h
  unfold sampleMarshal at h
  split at h
  · cases h
  · cases h
    decide

theorem runCollection_path (cfg : Config) (marshal : Event → Option (List Char))
    (now : Time) (createOk : Bool) (fs : FileSys) (ready : List Ready) :
    (runCollection cfg marshal now createOk fs ready).path = outputFile cfg now := by
  cases createOk with
  | false => rfl
  | true =>
    simp only [runCollection, if_true]
    exact (drain_created cfg marshal _ _).2.1

theorem runCollection_returns (cfg : Config) (marshal : Event → Option (List Char))
    (now : Time) (fs : FileSys) (ready : List Ready) (h : timesOut ready = true) :
    (runCollection cfg marshal now true fs ready).returned = true ∧
    (runCollection cfg marshal now true fs ready).stopped = true ∧
    (runCollection cfg marshal now true fs ready).closed = true ∧
    (runCollection cfg marshal now true fs ready).created = true ∧
    (runCollection cfg marshal now true fs ready).started = true ∧
    (runCollection cfg marshal now true fs ready).logs.getLast? =
      some (LogLine.cycleComplete (receivedBefore ready).length (outputFile cfg now)) := by
  simp only [runCollection, if_true]
  obtain ⟨h1, h2, h3, h4⟩ := drain_returns cfg marshal _ ready h
  obtain ⟨h5, _, h6, _⟩ := drain_created cfg marshal
    { started := true, stopped := false, path := outputFile cfg now, created := true,
      fs := (FsOp.create (outputFile cfg now)).apply fs, offset := 0, encErr := false,
      timer := some (cycleTimeout cfg), closed := false, eventCount := 0, forwarded := [],
      logs := [LogLine.startingCycle cfg.SamplingOn], returned := false } ready
  refine ⟨h1, h2, h3, h5, h6, ?_⟩
  rw [h4]
  simp

theorem runCollection_eventCount (cfg : Config) (marshal : Event → Option (List Char))
    (now : Time) (fs : FileSys) (ready : List Ready) :
    (runCollection cfg marshal now true fs ready).eventCount = (receivedBefore ready).length := by
  simp [runCollection, drain_eventCount]

theorem runCollection_quiet (cfg : Config) (marshal : Event → Option (List Char))
    (now : Time) (fs : FileSys) (ready : List Ready) (hq : Quiet (outputFile cfg now) ready) :
    (runCollection cfg marshal now true fs ready).file =
      ndjson ((receivedBefore ready).filterMap marshal) ∧
    (runCollection cfg marshal now true fs ready).logs.count LogLine.encodeError =
      ((receivedBefore ready).filter fun e => (marshal e).isNone).length ∧
    (runCollection cfg marshal now true fs ready).fs (outputFile cfg now) =
      some (ndjson ((receivedBefore ready).filterMap marshal)) := by
  have hp := runCollection_path cfg marshal now true fs ready
  unfold Cycle.file
  rw [hp]
  simp only [runCollection, if_true]
  have := drain_quiet cfg marshal
    { started := true, stopped := false, path := outputFile cfg now, created := true,
      fs := (FsOp.create (outputFile cfg now)).apply fs, offset := 0, encErr := false,
      timer := some (cycleTimeout cfg), closed := false, eventCount := 0, forwarded := [],
      logs := [LogLine.startingCycle cfg.SamplingOn], returned := false } ready [] hq rfl
    (by simp [FsOp.apply]) rfl
  refine ⟨?_, ?_, ?_⟩
  · rw [this.1]
    simp
  · rw [this.2]
    simp [List.count_cons]
  · rw [this.1]
    simp

theorem runCollection_undisturbed (cfg : Config) (marshal : Event → Option (List Char))
    (hc : Compact marshal) (now : Time) (fs : FileSys) (ready : List Ready)
    (hu : Undisturbed (outputFile cfg now) ready) :
    (runCollection cfg marshal now true fs ready).eventCount =
      (records (runCollection cfg marshal now true fs ready).file).length +
      (runCollection cfg marshal now true fs ready).logs.count LogLine.encodeError := by
  have hp := runCollection_path cfg marshal now true fs ready
  unfold Cycle.file
  rw [hp]
  simp only [runCollection, if_true]
  obtain ⟨good, tail, hinv, hcnt⟩ := drain_undisturbed cfg marshal hc
    { started := true, stopped := false, path := outputFile cfg now, created := true,
      fs := (FsOp.create (outputFile cfg now)).apply fs, offset := 0, encErr := false,
      timer := some (cycleTimeout cfg), closed := false, eventCount := 0, forwarded := [],
      logs := [LogLine.startingCycle cfg.SamplingOn], returned := false } ready [] [] hu
    ⟨by simp [FsOp.apply, ndjson_nil], by simp, by simp, fun _ => ⟨rfl, rfl⟩⟩
  obtain ⟨hfs, htail, hgood, _⟩ := hinv
  have hpath := (drain_created cfg marshal
    { started := true, stopped := false, path := outputFile cfg now, created := true,
      fs := (FsOp.create (outputFile cfg now)).apply fs, offset := 0, encErr := false,
      timer := some (cycleTimeout cfg), closed := false, eventCount := 0, forwarded := [],
      logs := [LogLine.startingCycle cfg.SamplingOn], returned := false } ready).2.1
  rw [hpath] at hfs
  simp only at hfs
  rw [hfs]
  simp only [Option.getD_some]
  rw [records_ndjson_tail good tail hgood htail]
  simp [List.count_cons] at hcnt
  omega

/-! ## The collection cycle: claims -/

/-- C1 (as amended): when the drain loop receives events that all serialise to newline-free
encodings and then takes the timeout branch, and up to then every write to the file
succeeds and no other cycle acts on the cycle's output path, the cycle returns with its
file created and closed, and the file at its output path exists and holds exactly one
newline-delimited record per received event, the i-th being the encoding of the i-th event,
and nothing besides these records; with no events the file is empty. -/
theorem runCollection_writes_every_event (cfg : Config)
    (marshal : Event → Option (List Char)) (now : Time) (fs : FileSys) (ready : List Ready)
    (htime : timesOut ready = true)
    (hser : ∀ e ∈ receivedBefore ready, ∃ s, marshal e = some s ∧ '\n' ∉ s)
    (hq : Quiet (outputFile cfg now) ready) :
    (runCollection cfg marshal now true fs ready).returned = true ∧
    (runCollection cfg marshal now true fs ready).created = true ∧
    (runCollection cfg marshal now true fs ready).closed = true ∧
    (records (runCollection cfg marshal now true fs ready).file).length =
      (receivedBefore ready).length ∧
    (records (runCollection cfg marshal now true fs ready).file).map some =
      (receivedBefore ready).map marshal ∧
    (runCollection cfg marshal now true fs ready).file =
      ndjson (records (runCollection cfg marshal now true fs ready).file) ∧
    (runCollection cfg marshal now true fs ready).fs (outputFile cfg now) =
      some (runCollection cfg marshal now true fs ready).file ∧
    (receivedBefore ready = [] → (runCollection cfg marshal now true fs ready).file = []) := by
  have hsome : ∀ e ∈ receivedBefore ready, (marshal e).isSome := by
    intro e he
    obtain ⟨s, hs, _⟩ := hser e he
    simp [hs]
  have hnl : ∀ r ∈ (receivedBefore ready).filterMap marshal, '\n' ∉ r := by
    intro r hr
    obtain ⟨e, he, hm⟩ := List.mem_filterMap.mp hr
    obtain ⟨s, hs, hn⟩ := hser e he
    rw [hs] at hm
    cases hm
    exact hn
  have hfile := (runCollection_quiet cfg marshal now fs ready hq).1
  have hfs := (runCollection_quiet cfg marshal now fs ready hq).2.2
  have hrec := records_ndjson _ hnl
  have hmap := filterMap_of_all_some marshal (receivedBefore ready) hsome
  obtain ⟨h1, _, h3, h4, _, _⟩ := runCollection_returns cfg marshal now fs ready htime
  refine ⟨h1, h4, h3, ?_, ?_, ?_, ?_, ?_⟩
  · rw [hfile, hrec]
    have := congrArg List.length hmap
    simpa using this
  · rw [hfile, hrec, hmap]
  · rw [hfile, hrec]
  · rw [hfs, hfile]
  · intro hnil
    rw [hfile, hnil]
    rfl

/-- Witness for C1: two serialisable events, written without error, followed by the
timeout give two records. -/
theorem runCollection_writes_every_event_witness :
    timesOut (quietRun [sampleEvent, sampleEvent]) = true ∧
    (∀ e ∈ receivedBefore (quietRun [sampleEvent, sampleEvent]),
      ∃ s, sampleMarshal e = some s ∧ '\n' ∉ s) ∧
    Quiet (outputFile Default sampleTime) (quietRun [sampleEvent, sampleEvent]) ∧
    (records (runCollection Default sampleMarshal sampleTime true noFs
        (quietRun [sampleEvent, sampleEvent])).file).length =
      (receivedBefore (quietRun [sampleEvent, sampleEvent])).length :=
  ⟨rfl,
   by intro e he; simp [quietRun, receivedBefore] at he; subst he
      exact ⟨['e', 'v'], by decide, by decide⟩,
   ⟨rfl, rfl, trivial⟩,
   (runCollection_writes_every_event Default sampleMarshal sampleTime noFs
      (quietRun [sampleEvent, sampleEvent]) rfl
      (by intro e he; simp [quietRun, receivedBefore] at he; subst he
          exact ⟨['e', 'v'], by decide, by decide⟩)
      ⟨rfl, rfl, trivial⟩).2.2.2.1⟩

/-- C1 (counterexample): a cycle started at `sampleTime` receives one serialisable event and
writes its record; a second cycle started half a second later in the same wall-clock second
then creates its output file, which is the same path, and truncates it; the first cycle
times out. It has received one event, and its output file holds no record. Likewise, in a
run whose first write fails after one byte, two serialisable events are received and the
file holds no record. -/
theorem same_second_cycle_truncates_file :
    sampleTime ≠ sampleTimeLater ∧
    outputFile Default sampleTimeLater = outputFile Default sampleTime ∧
    (∀ fs : FileSys, (runCollection Default sampleMarshal sampleTimeLater true fs []).fs =
      (FsOp.create (outputFile Default sampleTimeLater)).apply fs) ∧
    receivedBefore overlappedRun = [sampleEvent] ∧
    sampleMarshal sampleEvent = some ['e', 'v'] ∧
    (runCollection Default sampleMarshal sampleTime true noFs overlappedRun).returned = true ∧
    records (runCollection Default sampleMarshal sampleTime true noFs overlappedRun).file =
      [] ∧
    receivedBefore failedWriteRun = [sampleEvent, sampleEvent] ∧
    (runCollection Default sampleMarshal sampleTime true noFs failedWriteRun).returned =
      true ∧
    records (runCollection Default sampleMarshal sampleTime true noFs failedWriteRun).file =
      [] :=
  ⟨by decide, by decide, fun _ => rfl, rfl, rfl, by decide, by decide, rfl, by decide,
    by decide⟩

/-- C4 (failing path): when `os.Create` fails, `runCollection` returns with the source
session started and never stopped, whatever the channel would have delivered; on the
timeout path the session is stopped before the return. -/
theorem runCollection_create_failure_leaves_session_running (cfg : Config)
    (marshal : Event → Option (List Char)) (now : Time) (fs : FileSys) (ready : List Ready) :
    (runCollection cfg marshal now false fs ready).returned = true ∧
    (runCollection cfg marshal now false fs ready).started = true ∧
    (runCollection cfg marshal now false fs ready).stopped = false ∧
    (runCollection cfg marshal now false fs ready).logs =
      [LogLine.startingCycle cfg.SamplingOn, LogLine.createError] ∧
    (∀ (events : List Event) (rest : List Ready),
      (runCollection cfg marshal now true fs
        (events.map (fun e => Ready.event e WriteResult.ok) ++
          Ready.timeout :: rest)).started = true ∧
      (runCollection cfg marshal now true fs
        (events.map (fun e => Ready.event e WriteResult.ok) ++
          Ready.timeout :: rest)).stopped = true ∧
      (runCollection cfg marshal now true fs
        (events.map (fun e => Ready.event e WriteResult.ok) ++
          Ready.timeout :: rest)).returned = true) ∧
    (∀ timed : List Ready, timesOut timed = true →
      (runCollection cfg marshal now true fs timed).started = true ∧
      (runCollection cfg marshal now true fs timed).stopped = true ∧
      (runCollection cfg marshal now true fs timed).returned = true) := by
  have hgen : ∀ timed : List Ready, timesOut timed = true →
      (runCollection cfg marshal now true fs timed).started = true ∧
      (runCollection cfg marshal now true fs timed).stopped = true ∧
      (runCollection cfg marshal now true fs timed).returned = true := by
    intro timed ht
    obtain ⟨h1, h2, _, _, h5, _⟩ := runCollection_returns cfg marshal now fs timed ht
    exact ⟨h5, h2, h1⟩
  refine ⟨by simp [runCollection], by simp [runCollection], by simp [runCollection],
    by simp [runCollection], ?_, hgen⟩
  intro events rest
  apply hgen
  induction events with
  | nil => rfl
  | cons e es ih => simpa [timesOut] using ih

/-- C9: two runs on the same inputs that differ only in `HTTPEndpoint` (empty versus `ep`)
end in the same state apart from the dispatch list, so file contents and event count agree;
with the empty endpoint nothing is dispatched, and with a non-empty one exactly one dispatch
per received event is made, in order, carrying that event. -/
theorem runCollection_forwarding_independent (cfg : Config)
    (marshal : Event → Option (List Char)) (now : Time) (createOk : Bool) (fs : FileSys)
    (ready : List Ready) (ep : String) :
    (runCollection { cfg with HTTPEndpoint := ep } marshal now createOk fs ready).file =
      (runCollection { cfg with HTTPEndpoint := "" } marshal now createOk fs ready).file ∧
    (runCollection { cfg with HTTPEndpoint := ep } marshal now createOk fs ready).eventCount =
      (runCollection { cfg with HTTPEndpoint := "" } marshal now createOk fs
        ready).eventCount ∧
    (runCollection { cfg with HTTPEndpoint := ep } marshal now createOk fs ready).logs =
      (runCollection { cfg with HTTPEndpoint := "" } marshal now createOk fs ready).logs ∧
    (runCollection { cfg with HTTPEndpoint := "" } marshal now createOk fs
      ready).forwarded = [] ∧
    (runCollection { cfg with HTTPEndpoint := ep } marshal now createOk fs ready).forwarded =
      (if ep ≠ "" ∧ createOk = true then (receivedBefore ready).map fun e => (ep, e)
       else []) ∧
    (runCollection { cfg with HTTPEndpoint := ep } marshal now createOk fs ready).fs =
      (runCollection { cfg with HTTPEndpoint := "" } marshal now createOk fs ready).fs := by
  have h := runCollection_erase_forwarded { cfg with HTTPEndpoint := ep } marshal now
    createOk fs ready
  have h0 := runCollection_erase_forwarded { cfg with HTTPEndpoint := "" } marshal now
    createOk fs ready
  simp only at h h0
  refine ⟨?_, ?_, ?_, ?_, ?_, ?_⟩
  · rw [← h]
    rfl
  · rw [← h]
  · rw [← h]
  · rw [← h0]
  · cases createOk with
    | false => simp [runCollection]
    | true =>
      by_cases hep : ep = "" <;> simp [runCollection, drain_forwarded, hep]
  · rw [← h]

/-- C10 (as amended): the count reported in the final log line when the timeout fires is
the number of events received, whether or not each was encoded. When no other cycle acts on
the cycle's output path before the timeout, that count is the number of records in the file
plus the number of failed `Encode` calls (each of which logged one encode error), and it
equals the record count exactly when no `Encode` call failed; when moreover every write
succeeds, the failed calls are exactly the events that do not serialise. -/
theorem runCollection_reported_count (cfg : Config)
    (marshal : Event → Option (List Char)) (now : Time) (fs : FileSys) (ready : List Ready)
    (hc : Compact marshal) (htime : timesOut ready = true) :
    (runCollection cfg marshal now true fs ready).logs.getLast? =
      some (LogLine.cycleComplete (receivedBefore ready).length (outputFile cfg now)) ∧
    (runCollection cfg marshal now true fs ready).eventCount = (receivedBefore ready).length ∧
    (Undisturbed (outputFile cfg now) ready →
      (receivedBefore ready).length =
        (records (runCollection cfg marshal now true fs ready).file).length +
        (runCollection cfg marshal now true fs ready).logs.count LogLine.encodeError ∧
      ((receivedBefore ready).length =
          (records (runCollection cfg marshal now true fs ready).file).length ↔
        (runCollection cfg marshal now true fs ready).logs.count LogLine.encodeError = 0)) ∧
    (Quiet (outputFile cfg now) ready →
      (runCollection cfg marshal now true fs ready).logs.count LogLine.encodeError =
        ((receivedBefore ready).filter fun e => (marshal e).isNone).length ∧
      ((receivedBefore ready).length =
          (records (runCollection cfg marshal now true fs ready).file).length ↔
        ∀ e ∈ receivedBefore ready, (marshal e).isSome = true)) := by
  have hcount := runCollection_eventCount cfg marshal now fs ready
  refine ⟨(runCollection_returns cfg marshal now fs ready htime).2.2.2.2.2, hcount, ?_, ?_⟩
  · intro hu
    have h := runCollection_undisturbed cfg marshal hc now fs ready hu
    rw [hcount] at h
    exact ⟨h, by omega⟩
  · intro hq
    obtain ⟨hfile, herrs, _⟩ := runCollection_quiet cfg marshal now fs ready hq
    have hrec := records_ndjson _ (mem_filterMap_compact marshal hc (receivedBefore ready))
    have hadd := filterMap_length_add marshal (receivedBefore ready)
    refine ⟨herrs, ?_⟩
    rw [hfile, hrec]
    constructor
    · intro hlen e he
      have hz : ((receivedBefore ready).filter fun e => (marshal e).isNone).length = 0 := by
        omega
      have hnil := List.length_eq_zero.mp hz
      cases hm : marshal e with
      | some s => rfl
      | none =>
        have : e ∈ (receivedBefore ready).filter fun e => (marshal e).isNone :=
          List.mem_filter.mpr ⟨he, by simp [hm]⟩
        rw [hnil] at this
        cases this
    · intro hall
      have := congrArg List.length (filterMap_of_all_some marshal (receivedBefore ready) hall)
      rw [List.length_map, List.length_map] at this
      omega

/-- Witness for C10: of three received events one fails to encode; the reported count is
three. -/
theorem runCollection_reported_count_witness :
    Compact sampleMarshal ∧
    timesOut (quietRun [sampleEvent, badEvent, sampleEvent]) = true ∧
    (runCollection Default sampleMarshal sampleTime true noFs
        (quietRun [sampleEvent, badEvent, sampleEvent])).eventCount =
      (receivedBefore (quietRun [sampleEvent, badEvent, sampleEvent])).length :=
  ⟨sampleMarshal_compact, rfl,
   (runCollection_reported_count Default sampleMarshal sampleTime noFs
      (quietRun [sampleEvent, badEvent, sampleEvent]) sampleMarshal_compact rfl).2.1⟩

/-- C10 (counterexample): in the run where a same-second cycle truncates the file after the
first cycle wrote its one record, the reported count is 1 while the file holds no record
and no `Encode` call failed, so the count is not the records plus the failures. -/
theorem truncated_file_breaks_count_balance :
    (runCollection Default sampleMarshal sampleTime true noFs overlappedRun).logs.getLast? =
      some (LogLine.cycleComplete 1 (outputFile Default sampleTime)) ∧
    (runCollection Default sampleMarshal sampleTime true noFs overlappedRun).eventCount = 1 ∧
    records (runCollection Default sampleMarshal sampleTime true noFs overlappedRun).file =
      [] ∧
    (runCollection Default sampleMarshal sampleTime true noFs overlappedRun).logs.count
      LogLine.encodeError = 0 ∧
    ((receivedBefore overlappedRun).filter fun e => (sampleMarshal e).isNone) = [] ∧
    outputFile Default sampleTimeLater = outputFile Default sampleTime :=
  ⟨by decide, by decide, by decide, by decide, rfl, by decide⟩

/-! ## The cycle with its channel -/

theorem selectLoop_spec (signals : List Signal) (n : Nat) :
    selectLoop signals n =
      (n + (signals.takeWhile fun s => decide (s = Signal.tick)).length,
        decide (Signal.stop ∈ signals)) := by
  induction signals generalizing n with
  | nil => simp [selectLoop]
  | cons s rest ih =>
    cases s with
    | tick =>
      rw [selectLoop, ih]
      simp [List.takeWhile_cons]
      omega
    | stop => simp [selectLoop, List.takeWhile_cons]

theorem main_reaches_loop (flags : Flags) (readFile : String → FileRead)
    (mkdirOk newCollectorOk : Bool)
    (h : (main flags readFile mkdirOk newCollectorOk []).outcome = Outcome.waiting) :
    ∃ d, ∀ signals : List Signal, main flags readFile mkdirOk newCollectorOk signals =
      ⟨if (selectLoop signals 1).2 then Outcome.shutdown else Outcome.waiting, some d,
        (selectLoop signals 1).1⟩ := by
  unfold main at h ⊢
  cases hl : loadConfig flags readFile with
  | error e => simp [hl] at h
  | ok cfg =>
    simp only [hl] at h ⊢
    cases mkdirOk with
    | false => simp at h
    | true =>
      cases newCollectorOk with
      | false => simp at h
      | true =>
        cases ht : NewTicker (tickerPeriod cfg) with
        | none => simp [ht] at h
        | some d => exact ⟨d, fun signals => by simp⟩

/-- C6: once `main` has reached its select loop, the number of collection cycles launched
is one (the cold-start cycle) plus the number of ticks handled before the first stop signal;
`main` returns exactly when a stop signal is handled, and whatever follows that stop signal
launches nothing and changes nothing. -/
theorem main_launch_count (flags : Flags) (readFile : String → FileRead)
    (mkdirOk newCollectorOk : Bool)
    (hstart : (main flags readFile mkdirOk newCollectorOk []).outcome = Outcome.waiting)
    (signals : List Signal) :
    (main flags readFile mkdirOk newCollectorOk signals).launched =
      1 + (signals.takeWhile fun s => decide (s = Signal.tick)).length ∧
    ((main flags readFile mkdirOk newCollectorOk signals).outcome = Outcome.shutdown ↔
      Signal.stop ∈ signals) ∧
    (main flags readFile mkdirOk newCollectorOk []).launched = 1 ∧
    (∀ before after : List Signal,
      main flags readFile mkdirOk newCollectorOk (before ++ Signal.stop :: after) =
        main flags readFile mkdirOk newCollectorOk (before ++ [Signal.stop])) := by
  obtain ⟨d, hd⟩ := main_reaches_loop flags readFile mkdirOk newCollectorOk hstart
  refine ⟨?_, ?_, ?_, ?_⟩
  · rw [hd, selectLoop_spec]
  · rw [hd, selectLoop_spec]
    by_cases hs : Signal.stop ∈ signals <;> simp [hs]
  · rw [hd]
    rfl
  · intro before after
    rw [hd, hd, selectLoop_spec, selectLoop_spec]
    simp [List.takeWhile_append]

/-- Witness for C6: with the default flags, two ticks and then a stop signal launch three
cycles. -/
theorem main_launch_count_witness :
    (main Flags.defaults noFiles true true []).outcome = Outcome.waiting ∧
    (main Flags.defaults noFiles true true
        [Signal.tick, Signal.tick, Signal.stop, Signal.tick]).launched =
      1 + ([Signal.tick, Signal.tick, Signal.stop, Signal.tick].takeWhile
        fun s => decide (s = Signal.tick)).length :=
  ⟨by decide,
   (main_launch_count Flags.defaults noFiles true true (by decide)
      [Signal.tick, Signal.tick, Signal.stop, Signal.tick]).1⟩

/-! ## Timer durations -/

theorem wrap64_of_range (x : Int) (hlo : -(2 ^ 63) ≤ x) (hhi : x < 2 ^ 63) : wrap64 x = x := by
  unfold wrap64
  have h : (x + 2 ^ 63) % 2 ^ 64 = x + 2 ^ 63 := Int.emod_eq_of_lt (by omega) (by omega)
  omega

theorem seconds_exact (n : Int) (hlo : -9223372036 ≤ n) (hhi : n ≤ 9223372036) :
    seconds n = n * 1000000000 := by
  unfold seconds Second
  apply wrap64_of_range <;> omega

theorem runCollection_timer (cfg : Config) (marshal : Event → Option (List Char))
    (now : Time) (fs : FileSys) (ready : List Ready) :
    (runCollection cfg marshal now true fs ready).timer = some (cycleTimeout cfg) := by
  simp only [runCollection, if_true]
  exact (drain_created cfg marshal _ _).2.2.2

/-- C7 (as amended): for a loaded configuration with `0 < SamplingOn + SamplingOff` and
`SamplingOn + SamplingOff ≤ 9223372036`, `main` arms its ticker without panicking, with a
period of exactly `(SamplingOn + SamplingOff) * 10^9` nanoseconds; and when `SamplingOn` is
between -9223372036 and 9223372036, the timeout armed by a cycle is exactly
`SamplingOn * 10^9` nanoseconds. -/
theorem ticker_and_timeout_exact (flags : Flags) (readFile : String → FileRead)
    (cfg : Config) (signals : List Signal)
    (hload : loadConfig flags readFile = Except.ok cfg)
    (hpos : 0 < cfg.SamplingOn + cfg.SamplingOff)
    (hmax : cfg.SamplingOn + cfg.SamplingOff ≤ 9223372036) :
    (main flags readFile true true signals).ticker =
      some ((cfg.SamplingOn + cfg.SamplingOff) * 1000000000) ∧
    (main flags readFile true true signals).outcome ≠ Outcome.panicked ∧
    (-9223372036 ≤ cfg.SamplingOn ∧ cfg.SamplingOn ≤ 9223372036 →
      ∀ (marshal : Event → Option (List Char)) (now : Time) (fs : FileSys)
        (ready : List Ready),
        (runCollection cfg marshal now true fs ready).timer =
          some (cfg.SamplingOn * 1000000000)) := by
  have hsum : wrap64 (cfg.SamplingOn + cfg.SamplingOff) = cfg.SamplingOn + cfg.SamplingOff :=
    wrap64_of_range _ (by omega) (by omega)
  have hperiod : tickerPeriod cfg = (cfg.SamplingOn + cfg.SamplingOff) * 1000000000 := by
    unfold tickerPeriod
    rw [hsum]
    exact seconds_exact _ (by omega) hmax
  have hticker : NewTicker (tickerPeriod cfg) =
      some ((cfg.SamplingOn + cfg.SamplingOff) * 1000000000) := by
    unfold NewTicker
    rw [hperiod]
    have : ¬ (cfg.SamplingOn + cfg.SamplingOff) * 1000000000 ≤ 0 := by omega
    simp [this]
  refine ⟨?_, ?_, ?_⟩
  · simp [main, hload, hticker]
  · simp only [main, hload, hticker]
    by_cases hs : (selectLoop signals 1).2 = true <;> simp [hs]
  · intro hon marshal now fs ready
    rw [runCollection_timer]
    unfold cycleTimeout
    rw [seconds_exact _ hon.1 hon.2]

/-- Witness for C7: an on-duration of 10000000000 s with an off-duration of -9999999995 s
loads, and the ticker is armed with their sum, five seconds. -/
theorem ticker_and_timeout_exact_witness :
    loadConfig gapFlags noFiles = Except.ok (flagSeeded gapFlags) ∧
    0 < (flagSeeded gapFlags).SamplingOn + (flagSeeded gapFlags).SamplingOff ∧
    (flagSeeded gapFlags).SamplingOn + (flagSeeded gapFlags).SamplingOff ≤ 9223372036 ∧
    (main gapFlags noFiles true true []).ticker =
      some (((flagSeeded gapFlags).SamplingOn +
        (flagSeeded gapFlags).SamplingOff) * 1000000000) :=
  ⟨rfl, by decide, by decide,
   (ticker_and_timeout_exact gapFlags noFiles (flagSeeded gapFlags) [] rfl
      (by decide) (by decide)).1⟩

/-- C7 (counterexample): with both sampling durations zero the configuration loads, yet
`main` panics in `time.NewTicker` and no ticker is armed; and with a sampling duration of
18446744074 seconds the ticker is armed with 290448384 nanoseconds and the cycle timeout is
the same wrapped value, not 18446744074 seconds. -/
theorem ticker_zero_period_panics :
    loadConfig zeroFlags noFiles = Except.ok (flagSeeded zeroFlags) ∧
    (main zeroFlags noFiles true true []).outcome = Outcome.panicked ∧
    (main zeroFlags noFiles true true []).ticker = none ∧
    loadConfig hugeFlags noFiles = Except.ok (flagSeeded hugeFlags) ∧
    (main hugeFlags noFiles true true []).ticker = some 290448384 ∧
    (runCollection (flagSeeded hugeFlags) sampleMarshal sampleTime true noFs []).timer =
      some 290448384 ∧
    (flagSeeded hugeFlags).SamplingOn * 1000000000 ≠ 290448384 :=
  ⟨rfl, by decide, by decide, rfl, by decide, by decide, by decide⟩

/-! ## Loading the configuration -/

theorem setField_null (cfg : Config) (f : Field) (v : JValue) (hv : v.isNull = true) :
    setField cfg f v = (cfg, false) := by
  cases v <;> simp [JValue.isNull] at hv
  cases f <;> rfl

theorem setField_accepts (cfg : Config) (f : Field) (v : JValue) (hv : f.accepts v = true) :
    (setField cfg f v).2 = false ∧ (setField cfg f v).1.get f = v ∧
      ∀ g, g ≠ f → (setField cfg f v).1.get g = cfg.get g := by
  rcases v with _ | b | (n | _) | s | items | members <;> cases f <;>
    simp [Field.accepts] at hv <;>
    first
    | (refine ⟨rfl, rfl, ?_⟩; intro g hg; cases g <;> simp at hg <;> rfl)
    | (refine ⟨?_, ?_, ?_⟩
       · simp [setField, hv]
       · simp [setField, hv, Config.get]
       · intro g hg
         cases g <;> simp at hg <;> simp [setField, hv, Config.get])

theorem setField_rejects (cfg : Config) (f : Field) (v : JValue) (hn : v.isNull = false)
    (hv : f.accepts v = false) : (setField cfg f v).2 = true := by
  rcases v with _ | b | (n | _) | s | items | members <;> cases f <;>
    simp [Field.accepts, JValue.isNull] at hv hn <;>
    first
    | rfl
    | (simp only [setField]
       rw [if_neg (by intro h; exact absurd (hv h.1) (by omega))])

theorem decodeMember_error (acc : Config × Bool) (kv : String × JValue) (h : acc.2 = true) :
    (decodeMember acc kv).2 = true := by
  unfold decodeMember
  cases lookupField kv.1 <;> simp [h]

theorem foldl_decodeMember_error (members : List (String × JValue)) (acc : Config × Bool)
    (h : acc.2 = true) : (members.foldl decodeMember acc).2 = true := by
  induction members generalizing acc with
  | nil => exact h
  | cons kv rest ih => exact ih _ (decodeMember_error acc kv h)

theorem foldl_decodeMember_ok (members : List (String × JValue)) (cfg : Config)
    (hw : WellTyped members) :
    (members.foldl decodeMember (cfg, false)).2 = false ∧
      ∀ f, (members.foldl decodeMember (cfg, false)).1.get f =
        (fileValue members f).getD (cfg.get f) := by
  induction members generalizing cfg with
  | nil => simp [fileValue]
  | cons kv rest ih =>
    have hrest : WellTyped rest := fun x hx => hw x (List.mem_cons_of_mem _ hx)
    have hkv := hw kv (List.mem_cons_self _ _)
    rw [List.foldl_cons]
    cases hl : lookupField kv.1 with
    | none =>
      have hstep : decodeMember (cfg, false) kv = (cfg, false) := by simp [decodeMember, hl]
      rw [hstep]
      refine ⟨(ih cfg hrest).1, fun f => ?_⟩
      rw [(ih cfg hrest).2 f]
      simp only [fileValue, hl]
      cases fileValue rest f <;> simp
    | some g =>
      rcases hkv g hl with hnull | hacc
      · have hstep : decodeMember (cfg, false) kv = (cfg, false) := by
          simp [decodeMember, hl, setField_null cfg g kv.2 hnull]
        rw [hstep]
        refine ⟨(ih cfg hrest).1, fun f => ?_⟩
        rw [(ih cfg hrest).2 f]
        simp only [fileValue, hl, hnull]
        cases fileValue rest f <;> simp
      · obtain ⟨he, hget, hother⟩ := setField_accepts cfg g kv.2 hacc
        have hnn : kv.2.isNull = false := by
          cases hk : kv.2 <;> simp [JValue.isNull]
          rw [hk] at hacc
          cases g <;> simp [Field.accepts] at hacc
        have hstep : decodeMember (cfg, false) kv = ((setField cfg g kv.2).1, false) := by
          simp [decodeMember, hl, he]
        rw [hstep]
        refine ⟨(ih _ hrest).1, fun f => ?_⟩
        rw [(ih _ hrest).2 f]
        simp only [fileValue, hl, hnn]
        cases fileValue rest f with
        | some v => simp
        | none =>
          by_cases hfg : f = g
          · subst hfg
            simp [hget]
          · have : ¬ g = f := fun h => hfg h.symm
            simp [hother f hfg, this]

theorem foldl_decodeMember_mistyped (members : List (String × JValue)) (acc : Config × Bool)
    (kv : String × JValue) (f : Field) (hmem : kv ∈ members)
    (hl : lookupField kv.1 = some f) (hn : kv.2.isNull = false)
    (hv : f.accepts kv.2 = false) : (members.foldl decodeMember acc).2 = true := by
  induction members generalizing acc with
  | nil => cases hmem
  | cons m rest ih =>
    rw [List.foldl_cons]
    rcases List.mem_cons.mp hmem with heq | hin
    · subst heq
      apply foldl_decodeMember_error
      simp [decodeMember, hl, setField_rejects acc.1 f kv.2 hn hv]
    · exact ih _ hin

/-- C5 (as amended): without a configuration file `loadConfig` returns exactly the
flag-seeded configuration. With a readable file holding a JSON object in which every member
naming a field carries `null` or a value of the field's type, it returns a configuration in
which each field has the value of the last non-null member naming it, and the flag-seeded
value (the flag, or the zero value for the monitor switches and the container runtime) when
there is none. If some member naming a field carries a non-null value of another type,
`loadConfig` returns the parse error instead of a configuration. -/
theorem loadConfig_file_over_flags (flags : Flags) (readFile : String → FileRead) :
    (flags.configFile = "" → loadConfig flags readFile = Except.ok (flagSeeded flags)) ∧
    (∀ members : List (String × JValue),
      flags.configFile ≠ "" →
      readFile flags.configFile = FileRead.json (JValue.object members) →
      (WellTyped members →
        ∃ cfg, loadConfig flags readFile = Except.ok cfg ∧
          ∀ f, cfg.get f = (fileValue members f).getD ((flagSeeded flags).get f)) ∧
      (¬ WellTyped members →
        loadConfig flags readFile = Except.error "parse config file")) := by
  refine ⟨?_, ?_⟩
  · intro h
    simp [loadConfig, h]
  · intro members hfile hread
    refine ⟨?_, ?_⟩
    · intro hw
      obtain ⟨herr, hget⟩ := foldl_decodeMember_ok members (flagSeeded flags) hw
      refine ⟨(members.foldl decodeMember (flagSeeded flags, false)).1, ?_, hget⟩
      simp [loadConfig, hfile, hread, Unmarshal, herr]
    · intro hw
      unfold WellTyped at hw
      push_neg at hw
      obtain ⟨kv, hmem, f, hl, hn, hv⟩ := hw
      have hn' : kv.2.isNull = false := by simpa using hn
      have hv' : f.accepts kv.2 = false := by simpa using hv
      have herr := foldl_decodeMember_mistyped members (flagSeeded flags, false) kv f hmem hl
        hn' hv'
      simp [loadConfig, hfile, hread, Unmarshal, herr]

theorem sampleMembers_wellTyped : WellTyped sampleMembers := by
  intro kv hkv f hf
  simp only [sampleMembers, List.mem_cons, List.mem_singleton, List.not_mem_nil, or_false]
    at hkv
  rcases hkv with rfl | rfl | rfl
  · have h : lookupField "sampling_on" = some Field.SamplingOn := by decide
    rw [h] at hf
    cases hf
    right
    decide
  · have h : lookupField "extra" = none := by decide
    rw [h] at hf
    cases hf
  · have h : lookupField "Verbose" = some Field.Verbose := by decide
    rw [h] at hf
    cases hf
    right
    decide

/-- Witness for C5: a well-typed file naming `sampling_on` and `Verbose` loads, and the
result has the file's `sampling_on`. -/
theorem loadConfig_file_over_flags_witness :
    fileFlags.configFile ≠ "" ∧ WellTyped sampleMembers ∧
    ∃ cfg, loadConfig fileFlags sampleFile = Except.ok cfg ∧
      ∀ f, cfg.get f = (fileValue sampleMembers f).getD ((flagSeeded fileFlags).get f) :=
  ⟨by decide, sampleMembers_wellTyped,
   ((loadConfig_file_over_flags fileFlags sampleFile).2 sampleMembers (by decide) rfl).1
      sampleMembers_wellTyped⟩

/-- C5 (counterexample): a readable, well-formed JSON file whose `sampling_on` is a string
makes `loadConfig` return the parse error rather than a configuration; and a file naming
`http_endpoint` with `null` leaves that field at the flag's value. -/
theorem loadConfig_mistyped_file_fails :
    loadConfig fileFlags mistypedFile = Except.error "parse config file" ∧
    loadConfig fileFlags nullFile = Except.ok (flagSeeded fileFlags) ∧
    (flagSeeded fileFlags).HTTPEndpoint = "http://sink" :=
  ⟨rfl, rfl, rfl⟩

/-! ## The timestamp layout -/

theorem digit_toNat (d : Nat) (h : d < 10) : (digit d).toNat = 48 + d := by
  interval_cases d <;> rfl

theorem digit_ne_slash (d : Nat) (h : d < 10) : digit d ≠ '/' := by
  interval_cases d <;> decide

/-- Reading the digits of `digitsRev` back, least significant first, gives the number. -/
theorem digitsRev_value (fuel u : Nat) (h : u < fuel) :
    (digitsRev fuel u).foldr (fun c acc => 10 * acc + (c.toNat - 48)) 0 = u := by
  induction fuel generalizing u with
  | zero => omega
  | succ n ih =>
    unfold digitsRev
    by_cases hu : u < 10
    · simp [hu, digit_toNat u hu]
    · have hmod : u % 10 < 10 := Nat.mod_lt _ (by decide)
      have hdiv : u / 10 < n := by omega
      simp only [hu, if_false, List.foldr_cons]
      rw [ih (u / 10) hdiv, digit_toNat _ hmod]
      omega

theorem digitsRev_no_slash (fuel u : Nat) : '/' ∉ digitsRev fuel u := by
  induction fuel generalizing u with
  | zero => simp [digitsRev]
  | succ n ih =>
    unfold digitsRev
    by_cases hu : u < 10
    · simp only [hu, if_true, List.mem_singleton]
      exact fun h => digit_ne_slash u hu h.symm
    · have hmod : u % 10 < 10 := Nat.mod_lt _ (by decide)
      simp only [hu, if_false, List.mem_cons, not_or]
      exact ⟨fun h => digit_ne_slash _ hmod h.symm, ih _⟩

theorem appendInt_value (x width : Nat) :
    (appendInt x width).foldl (fun acc c => 10 * acc + (c.toNat - 48)) 0 = x := by
  unfold appendInt
  rw [List.foldl_append]
  have hz : ∀ k : Nat,
      (List.replicate k '0').foldl (fun acc c => 10 * acc + (c.toNat - 48)) 0 = 0 := by
    intro k
    induction k with
    | zero => rfl
    | succ k ih => simp [List.replicate_succ, ih]
  rw [hz]
  unfold decimal
  rw [List.foldl_reverse]
  exact digitsRev_value (x + 1) x (by omega)

theorem appendInt_injective (a b width : Nat) (h : appendInt a width = appendInt b width) :
    a = b := by
  have ha := appendInt_value a width
  rw [h, appendInt_value] at ha
  exact ha.symm

theorem appendInt_no_slash (x width : Nat) : '/' ∉ appendInt x width := by
  unfold appendInt decimal
  simp only [List.mem_append, List.mem_reverse, not_or]
  refine ⟨?_, digitsRev_no_slash _ _⟩
  intro h
  have := (List.mem_replicate.mp h).2
  exact absurd this (by decide)

theorem appendInt_two_length (x : Nat) (h : x < 100) : (appendInt x 2).length = 2 := by
  interval_cases x <;> rfl

theorem Format_injective (s t : Time) (hs : s.Valid) (ht : t.Valid)
    (h : s.Format = t.Format) :
    s.year = t.year ∧ s.month = t.month ∧ s.day = t.day ∧ s.hour = t.hour ∧
      s.minute = t.minute ∧ s.second = t.second := by
  obtain ⟨_, hsM, _, hsD, hsh, hsm, hss, _⟩ := hs
  obtain ⟨_, htM, _, htD, hth, htm, hts, _⟩ := ht
  have len2 : ∀ a b : Nat, a < 100 → b < 100 →
      (appendInt a 2).length = (appendInt b 2).length := by
    intro a b ha hb
    rw [appendInt_two_length a ha, appendInt_two_length b hb]
  unfold Time.Format at h
  obtain ⟨h1, hsec⟩ := List.append_inj' h (len2 _ _ (by omega) (by omega))
  obtain ⟨h2, hmin⟩ := List.append_inj' h1 (len2 _ _ (by omega) (by omega))
  obtain ⟨h3, hhour⟩ := List.append_inj' h2 (len2 _ _ (by omega) (by omega))
  obtain ⟨h4, _⟩ := List.append_inj' h3 rfl
  obtain ⟨h5, hday⟩ := List.append_inj' h4 (len2 _ _ (by omega) (by omega))
  obtain ⟨hyear, hmonth⟩ := List.append_inj' h5 (len2 _ _ (by omega) (by omega))
  exact ⟨appendInt_injective _ _ _ hyear, appendInt_injective _ _ _ hmonth,
    appendInt_injective _ _ _ hday, appendInt_injective _ _ _ hhour,
    appendInt_injective _ _ _ hmin, appendInt_injective _ _ _ hsec⟩

theorem Format_no_slash (t : Time) : '/' ∉ t.Format := by
  unfold Time.Format
  simp only [List.mem_append, List.mem_singleton, not_or]
  exact ⟨⟨⟨⟨⟨⟨appendInt_no_slash _ _, appendInt_no_slash _ _⟩, appendInt_no_slash _ _⟩,
    by decide⟩, appendInt_no_slash _ _⟩, appendInt_no_slash _ _⟩, appendInt_no_slash _ _⟩

/-! ## Joining a directory and a file name -/

theorem splitSlash_ne_nil (p : List Char) : splitSlash p ≠ [] := by
  cases p with
  | nil => simp [splitSlash]
  | cons c cs =>
    unfold splitSlash
    by_cases hc : c = '/'
    · simp [hc]
    · simp only [hc, if_false]
      cases splitSlash cs <;> simp

theorem splitSlash_no_slash (name : List Char) (h : '/' ∉ name) : splitSlash name = [name] := by
  induction name with
  | nil => rfl
  | cons c cs ih =>
    have hc : c ≠ '/' := fun hcn => h (by simp [hcn])
    have hcs : '/' ∉ cs := fun hm => h (List.mem_cons_of_mem _ hm)
    simp [splitSlash, hc, ih hcs]

theorem splitSlash_append (dir name : List Char) :
    splitSlash (dir ++ '/' :: name) = splitSlash dir ++ splitSlash name := by
  induction dir with
  | nil => simp [splitSlash]
  | cons c cs ih =>
    by_cases hc : c = '/'
    · simp [splitSlash, hc, ih]
    · have hne := splitSlash_ne_nil cs
      cases hsp : splitSlash cs with
      | nil => exact absurd hsp hne
      | cons x xs => simp [splitSlash, hc, ih, hsp]

/-- The last element is the tail of what `joinSlash` produces. -/
theorem joinSlash_append_singleton (xs : List (List Char)) (name : List Char) :
    joinSlash (xs ++ [name]) = (xs.map fun x => x ++ ['/']).flatten ++ name := by
  induction xs with
  | nil => simp [joinSlash]
  | cons x rest ih =>
    cases rest with
    | nil => simp [joinSlash]
    | cons y ys =>
      have : (x :: y :: ys) ++ [name] = x :: (y :: (ys ++ [name])) := rfl
      rw [this, joinSlash]
      have h2 : y :: (ys ++ [name]) = (y :: ys) ++ [name] := rfl
      rw [h2, ih]
      simp

/-- A plain element (not empty, neither `.` nor `..`) is pushed by `cleanStep` as it is. -/
theorem cleanStep_plain (rooted : Bool) (st : List (List Char)) (name : List Char)
    (h1 : name ≠ []) (h2 : name ≠ ['.']) (h3 : name ≠ ['.', '.']) :
    cleanStep rooted st name = name :: st := by
  simp [cleanStep, h1, h2, h3]

theorem Join_plain (dir : List Char) :
    ∃ pre : List Char, ∀ name : List Char, name ≠ [] → '/' ∉ name → name ≠ ['.'] →
      name ≠ ['.', '.'] → Join dir name = pre ++ name := by
  by_cases hd : dir = []
  · refine ⟨[], ?_⟩
    intro name h1 h2 h3 h4
    subst hd
    have hhead : ¬ name.head? = some '/' := by
      cases name with
      | nil => simp
      | cons c cs =>
        simp only [List.head?_cons, Option.some.injEq]
        exact fun hc => h2 (by simp [hc])
    simp [Join, Clean, h1, splitSlash_no_slash name h2, cleanStep_plain _ _ name h1 h3 h4,
      hhead, joinSlash]
  · refine ⟨(if dir.head? = some '/' then ['/'] else []) ++
      ((((splitSlash dir).foldl (cleanStep (decide (dir.head? = some '/'))) []).reverse.map
        fun x => x ++ ['/']).flatten), ?_⟩
    intro name h1 h2 h3 h4
    have hne : dir ++ '/' :: name ≠ [] := by simp
    have hhead : (dir ++ '/' :: name).head? = dir.head? := by
      cases dir with
      | nil => exact absurd rfl hd
      | cons c cs => rfl
    simp only [Join, hd, ne_eq, not_false_eq_true, if_true, Clean, hne, if_false, hhead,
      splitSlash_append, splitSlash_no_slash name h2, List.foldl_append, List.foldl_cons,
      List.foldl_nil, cleanStep_plain _ _ name h1 h3 h4, List.reverse_cons,
      joinSlash_append_singleton]
    by_cases hr : dir.head? = some '/' <;> simp [hr]

theorem fileName_plain (t : Time) :
    "events_".data ++ t.Format ++ ".json".data ≠ [] ∧
    '/' ∉ "events_".data ++ t.Format ++ ".json".data ∧
    "events_".data ++ t.Format ++ ".json".data ≠ ['.'] ∧
    "events_".data ++ t.Format ++ ".json".data ≠ ['.', '.'] := by
  have hcons : "events_".data ++ t.Format ++ ".json".data =
      'e' :: ("vents_".data ++ t.Format ++ ".json".data) := rfl
  refine ⟨?_, ?_, ?_, ?_⟩
  · rw [hcons]; simp
  · simp only [List.mem_append, not_or]
    exact ⟨⟨by decide, Format_no_slash t⟩, by decide⟩
  · rw [hcons]; simp
  · rw [hcons]; simp

theorem outputFile_data (cfg : Config) :
    ∃ pre : List Char, ∀ t : Time,
      (outputFile cfg t).data = pre ++ ("events_".data ++ t.Format ++ ".json".data) := by
  obtain ⟨pre, hpre⟩ := Join_plain cfg.OutputDir.data
  refine ⟨pre, fun t => ?_⟩
  obtain ⟨h1, h2, h3, h4⟩ := fileName_plain t
  simp only [outputFile]
  exact hpre _ h1 h2 h3 h4


theorem splitSlash_mem_no_slash (p : List Char) : ∀ c ∈ splitSlash p, '/' ∉ c := by
  induction p with
  | nil => simp [splitSlash]
  | cons x xs ih =>
    unfold splitSlash
    by_cases hx : x = '/'
    · simp only [hx, if_true, List.mem_cons]
      rintro c (rfl | hc)
      · simp
      · exact ih c hc
    · simp only [hx, if_false]
      cases hsp : splitSlash xs with
      | nil => 
        intro c hc
        simp at hc
        subst hc
        simpa using fun h => hx h.symm
      | cons h t =>
        rw [hsp] at ih
        intro c hc
        rcases List.mem_cons.mp hc with rfl | hc
        · have := ih h (List.mem_cons_self _ _)
          simp only [List.mem_cons, not_or]
          exact ⟨fun e => hx e.symm, this⟩
        · exact ih c (List.mem_cons_of_mem _ hc)

theorem cleanStep_kept (rooted : Bool) (st : List (List Char)) (x : List Char)
    (hst : ∀ c ∈ st, c ≠ [] ∧ c ≠ ['.'] ∧ '/' ∉ c) (hx : '/' ∉ x) :
    ∀ c ∈ cleanStep rooted st x, c ≠ [] ∧ c ≠ ['.'] ∧ '/' ∉ c := by
  unfold cleanStep
  by_cases h1 : x = [] ∨ x = ['.']
  · simpa [h1] using hst
  · simp only [h1, if_false]
    have hx1 : x ≠ [] := fun e => h1 (Or.inl e)
    have hx2 : x ≠ ['.'] := fun e => h1 (Or.inr e)
    have hpush : ∀ c ∈ x :: st, c ≠ [] ∧ c ≠ ['.'] ∧ '/' ∉ c := by
      intro c hc
      rcases List.mem_cons.mp hc with rfl | hc
      · exact ⟨hx1, hx2, hx⟩
      · exact hst c hc
    by_cases h2 : x = ['.', '.']
    · simp only [h2, if_true]
      rw [h2] at hpush
      cases st with
      | nil =>
        cases rooted
        · intro c hc
          simp at hc
          subst hc
          exact ⟨by simp, by simp, by decide⟩
        · simp
      | cons top below =>
        by_cases h3 : top = ['.', '.']
        · simp only [h3, if_true]
          rw [h3] at hpush
          exact hpush
        · simp only [h3, if_false]
          exact fun c hc => hst c (List.mem_cons_of_mem _ hc)
    · simpa [h2] using hpush

theorem foldl_cleanStep_kept (rooted : Bool) (xs st : List (List Char))
    (hst : ∀ c ∈ st, c ≠ [] ∧ c ≠ ['.'] ∧ '/' ∉ c) (hxs : ∀ x ∈ xs, '/' ∉ x) :
    ∀ c ∈ xs.foldl (cleanStep rooted) st, c ≠ [] ∧ c ≠ ['.'] ∧ '/' ∉ c := by
  induction xs generalizing st with
  | nil => simpa using hst
  | cons x rest ih =>
    rw [List.foldl_cons]
    exact ih _ (cleanStep_kept rooted st x hst (hxs x (List.mem_cons_self _ _)))
      (fun y hy => hxs y (List.mem_cons_of_mem _ hy))

theorem joinSlash_snoc (comps : List (List Char)) (name : List Char) (h : comps ≠ []) :
    joinSlash (comps ++ [name]) = joinSlash comps ++ '/' :: name := by
  induction comps with
  | nil => exact absurd rfl h
  | cons c rest ih =>
    cases rest with
    | nil => simp [joinSlash]
    | cons d ds =>
      have h1 : (c :: d :: ds) ++ [name] = c :: (d :: (ds ++ [name])) := rfl
      have h2 : d :: (ds ++ [name]) = (d :: ds) ++ [name] := rfl
      rw [h1, joinSlash, h2, ih (by simp), joinSlash]
      simp

theorem joinSlash_kept (comps : List (List Char)) (h : comps ≠ [])
    (hk : ∀ c ∈ comps, c ≠ [] ∧ c ≠ ['.'] ∧ '/' ∉ c) :
    joinSlash comps ≠ [] ∧ joinSlash comps ≠ ['.'] ∧ joinSlash comps ≠ ['/'] := by
  cases comps with
  | nil => exact absurd rfl h
  | cons c rest =>
    obtain ⟨hc1, hc2, hc3⟩ := hk c (List.mem_cons_self _ _)
    cases rest with
    | nil =>
      refine ⟨by simpa [joinSlash] using hc1, by simpa [joinSlash] using hc2, ?_⟩
      intro e
      simp only [joinSlash] at e
      exact hc3 (by simp [e])
    | cons d ds =>
      have hlen : 2 ≤ (joinSlash (c :: d :: ds)).length := by
        have : 1 ≤ c.length := by
          cases c with
          | nil => exact absurd rfl hc1
          | cons _ _ => simp
        simp only [joinSlash, List.length_append, List.length_cons]
        omega
      refine ⟨?_, ?_, ?_⟩ <;> intro e <;> rw [e] at hlen <;> simp at hlen

theorem Join_form (dir name : List Char) (hd : dir ≠ []) (h1 : name ≠ [])
    (h2 : '/' ∉ name) (h3 : name ≠ ['.']) (h4 : name ≠ ['.', '.']) :
    (Clean dir = ['.'] → Join dir name = name) ∧
    (Clean dir = ['/'] → Join dir name = '/' :: name) ∧
    (Clean dir ≠ ['.'] → Clean dir ≠ ['/'] → Join dir name = Clean dir ++ '/' :: name) := by
  have hne : dir ++ '/' :: name ≠ [] := by simp
  have hhead : (dir ++ '/' :: name).head? = dir.head? := by
    cases dir with
    | nil => exact absurd rfl hd
    | cons c cs => rfl
  have hkept := foldl_cleanStep_kept (decide (dir.head? = some '/')) (splitSlash dir) []
    (by simp) (splitSlash_mem_no_slash dir)
  have hJ : Join dir name =
      if dir.head? = some '/' then
        '/' :: joinSlash (((splitSlash dir).foldl
          (cleanStep (decide (dir.head? = some '/'))) []).reverse ++ [name])
      else joinSlash (((splitSlash dir).foldl
          (cleanStep (decide (dir.head? = some '/'))) []).reverse ++ [name]) := by
    simp only [Join, hd, ne_eq, not_false_eq_true, if_true, Clean, hne, if_false, hhead,
      splitSlash_append, splitSlash_no_slash name h2, List.foldl_append, List.foldl_cons,
      List.foldl_nil, cleanStep_plain _ _ name h1 h3 h4, List.reverse_cons]
    by_cases hr : dir.head? = some '/' <;> simp [hr]
  have hC : Clean dir =
      if dir.head? = some '/' then
        '/' :: joinSlash ((splitSlash dir).foldl
          (cleanStep (decide (dir.head? = some '/'))) []).reverse
      else if ((splitSlash dir).foldl
          (cleanStep (decide (dir.head? = some '/'))) []).reverse = [] then ['.']
      else joinSlash ((splitSlash dir).foldl
          (cleanStep (decide (dir.head? = some '/'))) []).reverse := by
    simp only [Clean, hd, if_false]
  generalize hS : ((splitSlash dir).foldl
    (cleanStep (decide (dir.head? = some '/'))) []).reverse = comps at hJ hC
  have hk : ∀ c ∈ comps, c ≠ [] ∧ c ≠ ['.'] ∧ '/' ∉ c := by
    intro c hc
    rw [← hS] at hc
    exact hkept c (List.mem_reverse.mp hc)
  rw [hJ, hC]
  by_cases hr : dir.head? = some '/'
  · simp only [hr, if_true]
    by_cases hcomps : comps = []
    · subst hcomps
      simp [joinSlash]
    · obtain ⟨k1, _, _⟩ := joinSlash_kept comps hcomps hk
      rw [joinSlash_snoc comps name hcomps]
      refine ⟨by simp, ?_, by simp⟩
      intro e
      simp at e
      exact absurd e k1
  · simp only [hr, if_false]
    by_cases hcomps : comps = []
    · subst hcomps
      simp [joinSlash]
    · obtain ⟨_, k2, k3⟩ := joinSlash_kept comps hcomps hk
      rw [joinSlash_snoc comps name hcomps]
      simp only [hcomps, if_false]
      exact ⟨fun e => absurd e k2, fun e => absurd e k3, fun _ _ => trivial⟩

theorem splitSlash_joinSlash (comps : List (List Char)) (h : comps ≠ [])
    (hc : ∀ c ∈ comps, '/' ∉ c) : splitSlash (joinSlash comps) = comps := by
  induction comps with
  | nil => exact absurd rfl h
  | cons c rest ih =>
    cases rest with
    | nil => simpa [joinSlash] using splitSlash_no_slash c (hc c (List.mem_cons_self _ _))
    | cons d ds =>
      rw [joinSlash, splitSlash_append, splitSlash_no_slash c (hc c (List.mem_cons_self _ _)),
        ih (by simp) (fun x hx => hc x (List.mem_cons_of_mem _ hx))]
      rfl

theorem foldl_cleanStep_plain (rooted : Bool) (comps st : List (List Char))
    (hp : ∀ c ∈ comps, c ≠ [] ∧ '/' ∉ c ∧ c ≠ ['.'] ∧ c ≠ ['.', '.']) :
    comps.foldl (cleanStep rooted) st = comps.reverse ++ st := by
  induction comps generalizing st with
  | nil => rfl
  | cons c rest ih =>
    obtain ⟨h1, _, h3, h4⟩ := hp c (List.mem_cons_self _ _)
    rw [List.foldl_cons, cleanStep_plain rooted st c h1 h3 h4,
      ih _ (fun x hx => hp x (List.mem_cons_of_mem _ hx))]
    simp

theorem Clean_of_clean (rooted : Bool) (comps : List (List Char)) (h : comps ≠ [])
    (hp : ∀ c ∈ comps, c ≠ [] ∧ '/' ∉ c ∧ c ≠ ['.'] ∧ c ≠ ['.', '.']) :
    Clean ((if rooted then ['/'] else []) ++ joinSlash comps) =
      (if rooted then ['/'] else []) ++ joinSlash comps := by
  have hns : ∀ c ∈ comps, '/' ∉ c := fun c hc => (hp c hc).2.1
  have hk : ∀ c ∈ comps, c ≠ [] ∧ c ≠ ['.'] ∧ '/' ∉ c :=
    fun c hc => ⟨(hp c hc).1, (hp c hc).2.2.1, (hp c hc).2.1⟩
  obtain ⟨k1, _, _⟩ := joinSlash_kept comps h hk
  cases rooted with
  | true =>
    have hsp : splitSlash ('/' :: joinSlash comps) = [] :: comps := by
      simp [splitSlash, splitSlash_joinSlash comps h hns]
    have hstep : cleanStep true [] [] = [] := by simp [cleanStep]
    simp [Clean, hsp, hstep, foldl_cleanStep_plain true comps [] hp]
  | false =>
    have hhead : ¬ (joinSlash comps).head? = some '/' := by
      cases comps with
      | nil => exact absurd rfl h
      | cons c rest =>
        obtain ⟨c1, c2, _, _⟩ := hp c (List.mem_cons_self _ _)
        cases c with
        | nil => exact absurd rfl c1
        | cons x xs =>
          have hx : x ≠ '/' := fun e => c2 (by simp [e])
          cases rest <;> simp [joinSlash, hx]
    simp [Clean, k1, hhead, splitSlash_joinSlash comps h hns,
      foldl_cleanStep_plain false comps [] hp, h]

theorem Join_nil (name : List Char) (h1 : name ≠ []) (h2 : '/' ∉ name) (h3 : name ≠ ['.'])
    (h4 : name ≠ ['.', '.']) : Join [] name = name := by
  have hhead : ¬ name.head? = some '/' := by
    cases name with
    | nil => simp
    | cons c cs =>
      simp only [List.head?_cons, Option.some.injEq]
      exact fun hc => h2 (by simp [hc])
  simp [Join, Clean, h1, splitSlash_no_slash name h2, cleanStep_plain _ _ name h1 h3 h4,
    hhead, joinSlash]

theorem runCollection_path_form (cfg : Config) (marshal : Event → Option (List Char))
    (now : Time) (ok : Bool) (fs : FileSys) (ready : List Ready) :
    (cfg.OutputDir.data = [] →
      (runCollection cfg marshal now ok fs ready).path.data =
        "events_".data ++ now.Format ++ ".json".data) ∧
    (cfg.OutputDir.data ≠ [] →
      (Clean cfg.OutputDir.data = ['.'] →
        (runCollection cfg marshal now ok fs ready).path.data =
          "events_".data ++ now.Format ++ ".json".data) ∧
      (Clean cfg.OutputDir.data = ['/'] →
        (runCollection cfg marshal now ok fs ready).path.data =
          '/' :: ("events_".data ++ now.Format ++ ".json".data)) ∧
      (Clean cfg.OutputDir.data ≠ ['.'] → Clean cfg.OutputDir.data ≠ ['/'] →
        (runCollection cfg marshal now ok fs ready).path.data =
          Clean cfg.OutputDir.data ++
            '/' :: ("events_".data ++ now.Format ++ ".json".data))) := by
  obtain ⟨h1, h2, h3, h4⟩ := fileName_plain now
  have hdata : (outputFile cfg now).data =
      Join cfg.OutputDir.data ("events_".data ++ now.Format ++ ".json".data) := by
    simp only [outputFile]
  rw [runCollection_path, hdata]
  generalize "events_".data ++ now.Format ++ ".json".data = name at h1 h2 h3 h4 ⊢
  refine ⟨?_, ?_⟩
  · intro hd
    rw [hd]
    exact Join_nil name h1 h2 h3 h4
  · intro hd
    exact Join_form cfg.OutputDir.data name hd h1 h2 h3 h4

/-- C8 (as amended): two cycles with the same configuration have the same output path
exactly when their start times agree in year, month, day, hour, minute and second, so
cycles started in different wall-clock seconds write different files and cycles started
within the same second share one path. The path is the output directory as cleaned by
`filepath.Clean`, a slash, and `events_<YYYYMMDD_HHMMSS>.json` (the slash being omitted
after the root directory, and the directory omitted when it is empty or cleans to `.`); when
the output directory is already clean, that is, plain elements joined by single slashes with
or without a leading slash, the path is literally the output directory, a slash, and the
file name. -/
theorem cycle_paths_equal_iff_same_second (cfg : Config)
    (marshal : Event → Option (List Char)) (s t : Time) (ok₁ ok₂ : Bool)
    (fs₁ fs₂ : FileSys) (ready₁ ready₂ : List Ready) (hs : s.Valid) (ht : t.Valid) :
    ((runCollection cfg marshal s ok₁ fs₁ ready₁).path =
        (runCollection cfg marshal t ok₂ fs₂ ready₂).path ↔
      (s.year = t.year ∧ s.month = t.month ∧ s.day = t.day ∧ s.hour = t.hour ∧
        s.minute = t.minute ∧ s.second = t.second)) ∧
    (∀ (now : Time) (ok : Bool) (fs : FileSys) (ready : List Ready),
      (cfg.OutputDir.data = [] →
        (runCollection cfg marshal now ok fs ready).path.data =
          "events_".data ++ now.Format ++ ".json".data) ∧
      (cfg.OutputDir.data ≠ [] →
        (Clean cfg.OutputDir.data = ['.'] →
          (runCollection cfg marshal now ok fs ready).path.data =
            "events_".data ++ now.Format ++ ".json".data) ∧
        (Clean cfg.OutputDir.data = ['/'] →
          (runCollection cfg marshal now ok fs ready).path.data =
            '/' :: ("events_".data ++ now.Format ++ ".json".data)) ∧
        (Clean cfg.OutputDir.data ≠ ['.'] → Clean cfg.OutputDir.data ≠ ['/'] →
          (runCollection cfg marshal now ok fs ready).path.data =
            Clean cfg.OutputDir.data ++
              '/' :: ("events_".data ++ now.Format ++ ".json".data)))) ∧
    (∀ (rooted : Bool) (elems : List (List Char)), elems ≠ [] →
      (∀ c ∈ elems, c ≠ [] ∧ '/' ∉ c ∧ c ≠ ['.'] ∧ c ≠ ['.', '.']) →
      cfg.OutputDir.data = (if rooted then ['/'] else []) ++ joinSlash elems →
      ∀ (now : Time) (ok : Bool) (fs : FileSys) (ready : List Ready),
        (runCollection cfg marshal now ok fs ready).path.data =
          cfg.OutputDir.data ++ '/' :: ("events_".data ++ now.Format ++ ".json".data)) := by
  obtain ⟨pre, hpre⟩ := outputFile_data cfg
  refine ⟨?_, fun now ok fs ready => runCollection_path_form cfg marshal now ok fs ready, ?_⟩
  · rw [runCollection_path, runCollection_path]
    constructor
    · intro h
      have hd := congrArg String.data h
      rw [hpre s, hpre t] at hd
      have h1 := List.append_cancel_left hd
      have h2 := List.append_cancel_right h1
      have h3 := List.append_cancel_left h2
      exact Format_injective s t hs ht h3
    · rintro ⟨hy, hM, hD, hh, hm, hsec⟩
      have hf : s.Format = t.Format := by
        simp only [Time.Format, hy, hM, hD, hh, hm, hsec]
      simp only [outputFile, hf]
  · intro rooted elems hne hplain hdir now ok fs ready
    have hk : ∀ c ∈ elems, c ≠ [] ∧ c ≠ ['.'] ∧ '/' ∉ c :=
      fun c hc => ⟨(hplain c hc).1, (hplain c hc).2.2.1, (hplain c hc).2.1⟩
    obtain ⟨k1, k2, k3⟩ := joinSlash_kept elems hne hk
    have hclean : Clean cfg.OutputDir.data = cfg.OutputDir.data := by
      rw [hdir]
      exact Clean_of_clean rooted elems hne hplain
    have hd : cfg.OutputDir.data ≠ [] := by
      rw [hdir]
      cases rooted <;> simp [k1]
    have hdot : Clean cfg.OutputDir.data ≠ ['.'] := by
      rw [hclean, hdir]
      cases rooted <;> simp [k2]
    have hroot : Clean cfg.OutputDir.data ≠ ['/'] := by
      rw [hclean, hdir]
      cases rooted <;> simp [k1, k3]
    have := ((runCollection_path_form cfg marshal now ok fs ready).2 hd).2.2 hdot hroot
    rw [hclean] at this
    exact this

/-- Witness for C8: two valid start times a second apart give different paths. -/
theorem cycle_paths_equal_iff_same_second_witness :
    sampleTime.Valid ∧ ({ sampleTime with second := 2 } : Time).Valid ∧
    ((runCollection Default sampleMarshal sampleTime true noFs []).path =
        (runCollection Default sampleMarshal { sampleTime with second := 2 } true noFs
          []).path ↔
      (sampleTime.year = ({ sampleTime with second := 2 } : Time).year ∧
        sampleTime.month = ({ sampleTime with second := 2 } : Time).month ∧
        sampleTime.day = ({ sampleTime with second := 2 } : Time).day ∧
        sampleTime.hour = ({ sampleTime with second := 2 } : Time).hour ∧
        sampleTime.minute = ({ sampleTime with second := 2 } : Time).minute ∧
        sampleTime.second = ({ sampleTime with second := 2 } : Time).second)) ∧
    (runCollection Default sampleMarshal sampleTime true noFs []).path.data =
      Default.OutputDir.data ++ '/' :: ("events_".data ++ sampleTime.Format ++ ".json".data) :=
  ⟨by decide, by decide,
   (cycle_paths_equal_iff_same_second Default sampleMarshal sampleTime
      { sampleTime with second := 2 } true true noFs noFs [] [] (by decide) (by decide)).1,
   (cycle_paths_equal_iff_same_second Default sampleMarshal sampleTime
      sampleTime true true noFs noFs [] [] (by decide) (by decide)).2.2 true defaultDirElems
      (by decide) (by decide) (by decide) sampleTime true noFs []⟩

/-- C8 (counterexample): two cycles started at different instants of the same wall-clock
second, half a second apart, compute the same output path. -/
theorem cycles_in_same_second_share_path :
    sampleTime ≠ sampleTimeLater ∧ sampleTime.Valid ∧ sampleTimeLater.Valid ∧
    (runCollection Default sampleMarshal sampleTime true noFs []).path =
      (runCollection Default sampleMarshal sampleTimeLater true noFs []).path ∧
    (runCollection Default sampleMarshal sampleTime true noFs []).path =
      "/var/log/sds-observer/events_20240307_090501.json" :=
  ⟨by decide, by decide, by decide, by decide, by decide⟩

end SdsObserver
